import Mathlib

/-!
Verification of the subtitle segment engine (src/utils/subtitle.py and the
bulk-shift handler of the subtitle editor page).

Python strings are modelled as lists of characters, Python floats as
rationals, and Python dicts of segment fields as the structure `Seg` in which
an absent key (`index` before renumbering, `original` on freshly built
segments) is `none`.  A Python function that can raise an uncaught exception
is embedded with an `Option` result, `none` standing for the exception.
-/

/-! ## Definitions (shallow embedding of src/utils/subtitle.py and the editor page) -/

/-- Python `int(x)` applied to a float: truncation toward zero. -/
def pyTrunc (x : ℚ) : ℤ := if 0 ≤ x then ⌊x⌋ else ⌈x⌉

/-- Python float `%` for the positive moduli used here: `a % m = a - m * (a // m)`. -/
def pyMod (a m : ℚ) : ℚ := a - m * ⌊a / m⌋

/-- decimal digit character for a value below ten. -/
def digitChar (d : ℕ) : Char := Char.ofNat (48 + d)

/-- fuelled most-significant-first decimal digit expansion. -/
def natToCharsFuel : ℕ → ℕ → List Char
  | 0, _ => []
  | fuel + 1, n => if n < 10 then [digitChar n] else natToCharsFuel fuel (n / 10) ++ [digitChar (n % 10)]

/-- decimal digits of a natural number, as produced by Python `str(n)` for `n ≥ 0`. -/
def natToChars (n : ℕ) : List Char := natToCharsFuel (n + 1) n

/-- left padding used by the zero-padded format specifications. -/
def leftPad (w : ℕ) (c : Char) (l : List Char) : List Char := List.replicate (w - l.length) c ++ l

/-- Python format specification `{i:0wd}`: zero-pad to width `w`, the sign counting toward the width; the number widens past `w` digits rather than wrapping. -/
def padZero (w : ℕ) (i : ℤ) : List Char :=
  if i < 0 then '-' :: leftPad (w - 1) '0' (natToChars i.natAbs) else leftPad w '0' (natToChars i.toNat)

/-- Python `\s` / `str.strip` whitespace (ASCII range). -/
def isPySpace (c : Char) : Bool :=
  c == ' ' || c == '\t' || c == '\n' || c == '\r' || c == '\x0b' || c == '\x0c'

/-- Python `str.strip()`. -/
def stripList (l : List Char) : List Char :=
  ((l.dropWhile isPySpace).reverse.dropWhile isPySpace).reverse

/-- worker for `splitLines`. -/
def splitLinesGo : List Char → List Char → List (List Char)
  | [], acc => [acc.reverse]
  | c :: rest, acc => if c = '\n' then acc.reverse :: splitLinesGo rest [] else splitLinesGo rest (c :: acc)

/-- Python `str.split` on a single newline (empty pieces kept). -/
def splitLines (l : List Char) : List (List Char) := splitLinesGo l []

/-- Python `"\n".join`. -/
def joinNl : List (List Char) → List Char
  | [] => []
  | [l] => l
  | l :: ls => l ++ '\n' :: joinNl ls

/-- Python `" ".join`. -/
def joinSpace : List (List Char) → List Char
  | [] => []
  | [l] => l
  | l :: ls => l ++ ' ' :: joinSpace ls

/-- worker for `splitBlocks`; the fuel is at least the length of the remaining input plus one, so the first branch is unreachable. -/
def splitBlocksGo : ℕ → List Char → List Char → List (List Char)
  | 0, l, acc => [acc.reverse ++ l]
  | _ + 1, [], acc => [acc.reverse]
  | fuel + 1, c :: rest, acc =>
    if c = '\n' then
      match rest with
      | c2 :: rest2 =>
        if c2 = '\n' then acc.reverse :: splitBlocksGo fuel (rest2.dropWhile (fun x => x = '\n')) []
        else splitBlocksGo fuel rest (c :: acc)
      | [] => splitBlocksGo fuel [] (c :: acc)
    else splitBlocksGo fuel rest (c :: acc)

/-- Python `re.split` on the pattern of two or more newlines (greedy, leftmost). -/
def splitBlocks (l : List Char) : List (List Char) := splitBlocksGo (l.length + 1) l []

/-- accumulated value of a digit string. -/
def digitsVal (l : List Char) : ℕ := l.foldl (fun acc c => 10 * acc + (c.toNat - 48)) 0

/-- Python `int(s)` wrapped in try/except: strip, optional sign, then a nonempty run of digits; `none` models the caught `ValueError`. -/
def pyInt (l : List Char) : Option ℤ :=
  match stripList l with
  | [] => none
  | c :: rest =>
    if c = '-' then
      if rest ≠ [] ∧ rest.all Char.isDigit then some (-(digitsVal rest : ℤ)) else none
    else if c = '+' then
      if rest ≠ [] ∧ rest.all Char.isDigit then some ((digitsVal rest : ℤ)) else none
    else if (c :: rest).all Char.isDigit then some ((digitsVal (c :: rest) : ℤ)) else none

/-- a subtitle segment dict; an absent `index` or `original` key is `none`. -/
structure Seg where
  index : Option ℤ
  start : ℚ
  end_ : ℚ
  text : List Char
  original : Option (List Char)
deriving DecidableEq

/-- `format_timestamp_srt`: seconds to `HH:MM:SS,mmm`. -/
def format_timestamp_srt (seconds : ℚ) : List Char :=
  padZero 2 ⌊seconds / 3600⌋ ++ ':' ::
  padZero 2 ⌊(pyMod seconds 3600) / 60⌋ ++ ':' ::
  padZero 2 (pyTrunc (pyMod seconds 60)) ++ ',' ::
  padZero 3 (pyTrunc ((seconds - (pyTrunc seconds : ℚ)) * 1000))

/-- `format_timestamp_vtt`: seconds to `HH:MM:SS.mmm`. -/
def format_timestamp_vtt (seconds : ℚ) : List Char :=
  padZero 2 ⌊seconds / 3600⌋ ++ ':' ::
  padZero 2 ⌊(pyMod seconds 3600) / 60⌋ ++ ':' ::
  padZero 2 (pyTrunc (pyMod seconds 60)) ++ '.' ::
  padZero 3 (pyTrunc ((seconds - (pyTrunc seconds : ℚ)) * 1000))

/-- anchored prefix match of the regex `\d{2}:\d{2}:\d{2}[,.]\d{3}` returning the twelve matched characters and the remainder; `re.match` tolerates trailing characters. -/
def tsShape12 : List Char → Option (List Char × List Char)
  | a :: b :: c1 :: c :: d :: c2 :: e :: f :: sep :: g :: h :: i :: rest =>
    if a.isDigit && b.isDigit && c1 == ':' && c.isDigit && d.isDigit && c2 == ':' &&
       e.isDigit && f.isDigit && (sep == ',' || sep == '.') && g.isDigit && h.isDigit && i.isDigit
    then some ([a, b, c1, c, d, c2, e, f, sep, g, h, i], rest) else none
  | _ => none

/-- anchored prefix match of the regex `\d{2}:\d{2}[.,]\d{3}`. -/
def tsShape9 : List Char → Option (List Char × List Char)
  | a :: b :: c1 :: c :: d :: sep :: e :: f :: g :: rest =>
    if a.isDigit && b.isDigit && c1 == ':' && c.isDigit && d.isDigit &&
       (sep == '.' || sep == ',') && e.isDigit && f.isDigit && g.isDigit
    then some ([a, b, c1, c, d, sep, e, f, g], rest) else none
  | _ => none

/-- two-digit group value. -/
def d2v (a b : Char) : ℕ := 10 * (a.toNat - 48) + (b.toNat - 48)

/-- three-digit group value. -/
def d3v (a b c : Char) : ℕ := 100 * (a.toNat - 48) + 10 * (b.toNat - 48) + (c.toNat - 48)

/-- value of a full `HH:MM:SS,mmm` group: `hours*3600 + minutes*60 + seconds + millis/1000`. -/
def tsVal12 : List Char → ℚ
  | [a, b, _, c, d, _, e, f, _, g, h, i] =>
    ((d2v a b : ℚ) * 3600 + (d2v c d : ℚ) * 60 + (d2v e f : ℚ)) + (d3v g h i : ℚ) / 1000
  | _ => 0

/-- value of a short `MM:SS.mmm` group: `minutes*60 + seconds + millis/1000`. -/
def tsVal9 : List Char → ℚ
  | [a, b, _, c, d, _, e, f, g] =>
    ((d2v a b : ℚ) * 60 + (d2v c d : ℚ)) + (d3v e f g : ℚ) / 1000
  | _ => 0

/-- `parse_timestamp_srt`: best-effort decode, `0.0` when the pattern does not match. -/
def parse_timestamp_srt (timestamp : List Char) : ℚ :=
  match tsShape12 (stripList timestamp) with
  | some (g, _) => tsVal12 g
  | none => 0

/-- `parse_timestamp_vtt`: full form first, then the short form, `0.0` when neither matches. -/
def parse_timestamp_vtt (timestamp : List Char) : ℚ :=
  match tsShape12 (stripList timestamp) with
  | some (g, _) => tsVal12 g
  | none =>
    match tsShape9 (stripList timestamp) with
    | some (g, _) => tsVal9 g
    | none => 0

/-- anchored match of the SRT timing line regex `(ts) \s* --> \s* (ts)`, returning the two groups. -/
def matchTimingSrt (l : List Char) : Option (List Char × List Char) :=
  match tsShape12 l with
  | none => none
  | some (g1, r1) =>
    match r1.dropWhile isPySpace with
    | c1 :: c2 :: c3 :: r2 =>
      if c1 == '-' && c2 == '-' && c3 == '>' then
        match tsShape12 (r2.dropWhile isPySpace) with
        | some (g2, _) => some (g1, g2)
        | none => none
      else none
    | _ => none

/-- one alternative group `(full | short)` of the VTT timing regex; the full form is preferred, and backtracking can never switch alternatives after a successful full match. -/
def vttGroup (l : List Char) : Option (List Char × List Char) :=
  match tsShape12 l with
  | some r => some r
  | none => tsShape9 l

/-- anchored match of the VTT timing line regex. -/
def matchTimingVtt (l : List Char) : Option (List Char × List Char) :=
  match vttGroup l with
  | none => none
  | some (g1, r1) =>
    match r1.dropWhile isPySpace with
    | c1 :: c2 :: c3 :: r2 =>
      if c1 == '-' && c2 == '-' && c3 == '>' then
        match vttGroup (r2.dropWhile isPySpace) with
        | some (g2, _) => some (g1, g2)
        | none => none
      else none
    | _ => none

/-- one block of `SubtitleParser.parse_srt`; `none` models the `continue` paths that silently drop a malformed block. -/
def parseBlockSrt (block : List Char) : Option Seg :=
  match splitLines (stripList block) with
  | l0 :: l1 :: t0 :: ts =>
    match pyInt (stripList l0) with
    | none => none
    | some idx =>
      match matchTimingSrt (stripList l1) with
      | none => none
      | some (g1, g2) =>
        some { index := some idx, start := parse_timestamp_srt g1, end_ := parse_timestamp_srt g2,
               text := stripList (joinNl (t0 :: ts)), original := none }
  | _ => none

/-- `SubtitleParser.parse_srt`. -/
def parse_srt (content : List Char) : List Seg :=
  (splitBlocks (stripList content)).filterMap parseBlockSrt

/-- remainder after the first two adjacent newlines, used by the non-greedy header regex `^WEBVTT.*?\n\n`. -/
def dropToBlank : List Char → Option (List Char)
  | [] => none
  | c :: rest =>
    if c = '\n' then
      match rest with
      | c2 :: rest2 => if c2 = '\n' then some rest2 else dropToBlank rest
      | [] => none
    else dropToBlank rest

/-- `re.sub` removal of the leading `WEBVTT` header: applies only when the content starts with the literal and a blank line follows somewhere. -/
def stripVttHeader (l : List Char) : List Char :=
  match l with
  | 'W' :: 'E' :: 'B' :: 'V' :: 'T' :: 'T' :: rest =>
    match dropToBlank rest with
    | some r => r
    | none => l
  | _ => l

/-- whether the literal `-->` occurs anywhere in the line. -/
def hasArrow : List Char → Bool
  | [] => false
  | c1 :: rest =>
    (match rest with
     | c2 :: c3 :: _ => c1 == '-' && c2 == '-' && c3 == '>'
     | _ => false) || hasArrow rest

/-- renumbering loop shared by the editing operations and the VTT parser: `index` fields become the one-based positions. -/
def renumber (l : List Seg) : List Seg :=
  l.enum.map (fun p => { p.2 with index := some ((p.1 : ℤ) + 1) })

/-- one block of `SubtitleParser.parse_vtt` before numbering; `none` models the skipped blocks (no timing line found, or the timing regex fails). -/
def parseBlockVtt (block : List Char) : Option Seg :=
  let lines := splitLines (stripList block)
  match lines.findIdx? (fun l => hasArrow l) with
  | none => none
  | some tIdx =>
    match lines.get? tIdx with
    | none => none
    | some tline =>
      match matchTimingVtt (stripList tline) with
      | none => none
      | some (g1, g2) =>
        some { index := none, start := parse_timestamp_vtt g1, end_ := parse_timestamp_vtt g2,
               text := stripList (joinNl (lines.drop (tIdx + 1))), original := none }

/-- `SubtitleParser.parse_vtt`: header stripped, blocks parsed, sequence numbers assigned by output order starting at one. -/
def parse_vtt (content : List Char) : List Seg :=
  renumber ((splitBlocks (stripList (stripVttHeader content))).filterMap parseBlockVtt)

/-- worker for `generate_srt`, carrying the one-based position. -/
def genSrtGo : ℕ → List Seg → List Char
  | _, [] => []
  | k, s :: rest =>
    natToChars k ++ '\n' ::
    (format_timestamp_srt s.start ++ ' ' :: '-' :: '-' :: '>' :: ' ' :: format_timestamp_srt s.end_) ++ '\n' ::
    stripList s.text ++ '\n' :: '\n' :: genSrtGo (k + 1) rest

/-- the text that `SubtitleGenerator.generate_srt` writes to `output_path`. -/
def generate_srt (segments : List Seg) : List Char := genSrtGo 1 segments

/-- Python list subscript `segments[i]`: a negative index wraps from the end; `none` models an uncaught `IndexError`. -/
def pyGet (l : List Seg) (i : ℤ) : Option Seg :=
  if 0 ≤ i then l.get? i.toNat
  else if 0 ≤ (l.length : ℤ) + i then l.get? ((l.length : ℤ) + i).toNat else none

/-- evaluation of a generator expression that indexes the list: `none` as soon as one access raises. -/
def optMap {α β : Type} (f : α → Option β) : List α → Option (List β)
  | [] => some []
  | a :: l =>
    match f a, optMap f l with
    | some b, some bs => some (b :: bs)
    | _, _ => none

/-- the result-building loop of `merge_segments`: the merged dict replaces the first selected position, other selected positions are dropped. -/
def buildMergeGo (i0 : ℤ) (sIdx : List ℤ) (m : Seg) : ℕ → List Seg → List Seg
  | _, [] => []
  | i, seg :: rest =>
    if (i : ℤ) = i0 then m :: buildMergeGo i0 sIdx m (i + 1) rest
    else if (i : ℤ) ∈ sIdx then buildMergeGo i0 sIdx m (i + 1) rest
    else seg :: buildMergeGo i0 sIdx m (i + 1) rest

/-- `merge_segments`; `none` models the uncaught `IndexError` raised when a selected index is out of range (the source performs no bounds check). -/
def merge_segments (segments : List Seg) (indices : List ℤ) : Option (List Seg) :=
  if indices.length < 2 then some segments
  else
    match List.insertionSort (· ≤ ·) indices with
    | [] => some segments
    | i0 :: rest =>
      match pyGet segments i0, pyGet segments ((i0 :: rest).getLast (List.cons_ne_nil _ _)),
            optMap (fun i => (pyGet segments i).map Seg.text) (i0 :: rest) with
      | some first, some last, some texts =>
        some (renumber (buildMergeGo i0 (i0 :: rest)
          { index := none, start := first.start, end_ := last.end_,
            text := joinSpace texts, original := none } 0 segments))
      | _, _, _ => none

/-- Python `text.rfind(' ', 0, stop)`: the highest position below `stop` holding a space, `none` for the return value `-1`. -/
def rfindSpace (txt : List Char) : ℕ → Option ℕ
  | 0 => none
  | j + 1 => if txt.get? j = some ' ' then some j else rfindSpace txt j

/-- the proportional character offset `int(len(text) * ratio)` of `split_segment`. -/
def ratioChar (text : List Char) (start end_ t : ℚ) : ℕ :=
  (pyTrunc ((text.length : ℚ) * ((t - start) / (end_ - start)))).toNat

/-- the character offset at which `split_segment` divides the text: the proportional offset, moved
back to the nearest preceding space when one sits at a positive offset (`rfind` then `if > 0`). -/
def splitCharOf (text : List Char) (start end_ t : ℚ) : ℕ :=
  match rfindSpace text (ratioChar text start end_ t) with
  | some j => if 0 < j then j else ratioChar text start end_ t
  | none => ratioChar text start end_ t

/-- `split_segment`. -/
def split_segment (segments : List Seg) (index : ℤ) (split_position : ℚ) : List Seg :=
  if index < 0 ∨ (segments.length : ℤ) ≤ index then segments
  else
    match segments.get? index.toNat with
    | none => segments
    | some seg =>
      if split_position ≤ seg.start ∨ seg.end_ ≤ split_position then segments
      else
        renumber (segments.take index.toNat ++
          { index := none, start := seg.start, end_ := split_position,
            text := stripList (seg.text.take (splitCharOf seg.text seg.start seg.end_ split_position)),
            original := none } ::
          { index := none, start := split_position, end_ := seg.end_,
            text := stripList (seg.text.drop (splitCharOf seg.text seg.start seg.end_ split_position)),
            original := none } ::
          segments.drop (index.toNat + 1))

/-- `adjust_timing`: the single-segment shift; the list and every dict are copied, so the call leaves its argument unchanged. -/
def adjust_timing (segments : List Seg) (index : ℤ) (start_delta end_delta : ℚ) : List Seg :=
  if index < 0 ∨ (segments.length : ℤ) ≤ index then segments
  else
    segments.enum.map (fun p =>
      if (p.1 : ℤ) = index then
        { p.2 with start := max 0 (p.2.start + start_delta),
                   end_ := max (max 0 (p.2.start + start_delta) + 1 / 10) (p.2.end_ + end_delta) }
      else p.2)

/-- the whole-sequence shift of the editor page toolbar: applied only for a nonzero delta, flooring each `start` at zero and each `end` at the absolute value one tenth. -/
def globalShift (segments : List Seg) (time_adjust : ℚ) : List Seg :=
  if time_adjust ≠ 0 then
    segments.map (fun s =>
      { s with start := max 0 (s.start + time_adjust), end_ := max (1 / 10) (s.end_ + time_adjust) })
  else segments

/-- worker computing where each shared input dict lands in the merge result; `i` is the input position, `k` the next free result position. -/
def mergeArgAfterGo (i0 : ℤ) (sIdx : List ℤ) : ℕ → ℕ → List Seg → List Seg
  | _, _, [] => []
  | i, k, seg :: rest =>
    if (i : ℤ) = i0 then seg :: mergeArgAfterGo i0 sIdx (i + 1) (k + 1) rest
    else if (i : ℤ) ∈ sIdx then seg :: mergeArgAfterGo i0 sIdx (i + 1) k rest
    else { seg with index := some ((k : ℤ) + 1) } :: mergeArgAfterGo i0 sIdx (i + 1) (k + 1) rest

/-- the state of the caller's list after `merge_segments` returns: `result.append(seg)` shares the dict objects of the non-selected segments, and the renumbering loop then writes their `index` keys in place, so the argument list observes those writes. -/
def merge_segments_argAfter (segments : List Seg) (indices : List ℤ) : List Seg :=
  if indices.length < 2 then segments
  else
    match List.insertionSort (· ≤ ·) indices with
    | [] => segments
    | i0 :: rest =>
      if (i0 :: rest).all (fun i => (pyGet segments i).isSome) then
        mergeArgAfterGo i0 (i0 :: rest) 0 0 segments
      else segments

/-- the state of the caller's list after `split_segment` returns: the list slices share the dict objects of every non-target segment, whose `index` keys the renumbering loop rewrites in place. -/
def split_segment_argAfter (segments : List Seg) (index : ℤ) (split_position : ℚ) : List Seg :=
  if index < 0 ∨ (segments.length : ℤ) ≤ index then segments
  else
    match segments.get? index.toNat with
    | none => segments
    | some seg =>
      if split_position ≤ seg.start ∨ seg.end_ ≤ split_position then segments
      else
        segments.enum.map (fun p =>
          if p.1 < index.toNat then { p.2 with index := some ((p.1 : ℤ) + 1) }
          else if p.1 = index.toNat then p.2
          else { p.2 with index := some ((p.1 : ℤ) + 2) })

/-- the state of the caller's list after `adjust_timing` returns: the source copies every dict before mutating, so the argument is untouched. -/
def adjust_timing_argAfter (segments : List Seg) (_index : ℤ) (_start_delta _end_delta : ℚ) : List Seg :=
  segments

/-- view of a segment dict without its `index` key, used to state which fields an operation can touch. -/
def segData (s : Seg) : ℚ × ℚ × List Char × Option (List Char) :=
  (s.start, s.end_, s.text, s.original)

/-- the non-selected segments of a suffix, in order: positions from `n` on whose index is not selected. -/
def removeSel (segments : List Seg) (indices : List ℤ) (n : ℕ) : List Seg :=
  ((segments.drop n).enumFrom n).filterMap
    (fun p => if (p.1 : ℤ) ∈ indices then none else some p.2)

/-- sample segment used in concrete instantiations. -/
def exSeg : Seg := { index := some 1, start := 1, end_ := 2, text := ['h', 'i'], original := none }

/-- sample segments for concrete instantiations with translation provenance. -/
def wSegA : Seg := { index := some 1, start := 0, end_ := 1, text := ['a', 'b'], original := some ['o'] }

/-- second sample segment. -/
def wSegB : Seg := { index := some 2, start := 1, end_ := 2, text := ['c'], original := some ['p'] }

/-- third sample segment. -/
def wSegC : Seg := { index := some 3, start := 2, end_ := 3, text := ['d'], original := none }

/-- sample segment for the split scenario. -/
def wSegFox : Seg :=
  { index := some 1, start := 0, end_ := 10, text := "The quick brown fox".toList, original := none }

/-- no two adjacent newline characters (a block survives the blank-line splitter intact). -/
def noBlankRun : List Char → Bool
  | [] => true
  | [_] => true
  | c1 :: c2 :: rest => (!(c1 == '\n' && c2 == '\n')) && noBlankRun (c2 :: rest)

/-- no newline at all. -/
def noNl (l : List Char) : Bool := l.all (fun c => !(c == '\n'))

/-- character class of a formatted timestamp: a digit, a colon or a comma. -/
def isTsChar (c : Char) : Bool := c.isDigit || c == ':' || c == ','

/-- the round-trip image of one segment: index from the one-based position, times truncated to the millisecond, text preserved, no original key. -/
def msSeg (p : ℕ × Seg) : Seg :=
  { index := some ((p.1 : ℤ)), start := (⌊1000 * p.2.start⌋ : ℚ) / 1000,
    end_ := (⌊1000 * p.2.end_⌋ : ℚ) / 1000, text := p.2.text, original := none }

/-- a segment within the domain the SRT writer/parser round trip preserves: times in `[0, 100h)`,
positive duration, text non-empty, strip-invariant and free of blank lines. -/
def goodSeg (s : Seg) : Prop :=
  0 ≤ s.start ∧ s.start < 360000 ∧ 0 ≤ s.end_ ∧ s.end_ < 360000 ∧ s.start < s.end_ ∧
  stripList s.text = s.text ∧ s.text ≠ [] ∧ noBlankRun s.text = true

/-- the timing line of one generated block. -/
def tsLine (s : Seg) : List Char :=
  format_timestamp_srt s.start ++ ' ' :: '-' :: '-' :: '>' :: ' ' :: format_timestamp_srt s.end_

/-- one generated block without its trailing blank line. -/
def blockOf (k : ℕ) (s : Seg) : List Char :=
  natToChars k ++ '\n' :: tsLine s ++ '\n' :: stripList s.text

/-- the generated blocks joined by blank lines (the stripped file content). -/
def blocksJoin (k : ℕ) : List Seg → List Char
  | [] => []
  | [s] => blockOf k s
  | s :: rest => blockOf k s ++ '\n' :: '\n' :: blocksJoin (k + 1) rest

/-- the generated blocks as the block splitter returns them. -/
def blocksList (k : ℕ) : List Seg → List (List Char)
  | [] => []
  | s :: rest => blockOf k s :: blocksList (k + 1) rest

/-- witness segment for C8: good in every respect, with a non-contiguous index. -/
def wSeg8 : Seg :=
  { index := some 5, start := 1, end_ := 5 / 2, text := "hello world".toList, original := none }

/-! ## Theorems -/

/-! ### generic helper lemmas -/

theorem pyGet_nonneg (l : List Seg) (i : ℤ) (h0 : 0 ≤ i) : pyGet l i = l.get? i.toNat := by
  simp [pyGet, h0]

theorem pyGet_none_of_ge (l : List Seg) (i : ℤ) (h : (l.length : ℤ) ≤ i) : pyGet l i = none := by
  have h0 : 0 ≤ i := le_trans (Int.natCast_nonneg _) h
  rw [pyGet_nonneg l i h0]
  exact List.get?_eq_none.mpr (by omega)

theorem pyGet_valid (l : List Seg) (i : ℤ) (h0 : 0 ≤ i) (h1 : i < (l.length : ℤ)) :
    ∃ s, pyGet l i = some s := by
  rw [pyGet_nonneg l i h0]
  have : i.toNat < l.length := by omega
  exact ⟨l.get ⟨i.toNat, this⟩, List.get?_eq_get this⟩

theorem optMap_eq_none {α β : Type} (f : α → Option β) (l : List α) (a : α)
    (ha : a ∈ l) (hfa : f a = none) : optMap f l = none := by
  induction l with
  | nil => cases ha
  | cons x xs ih =>
    rcases List.mem_cons.mp ha with h | h
    · subst h
      simp only [optMap, hfa]
    · rw [optMap, ih h]
      cases f x <;> rfl

theorem optMap_all_some {α β : Type} (f : α → Option β) (l : List α)
    (h : ∀ a ∈ l, (f a).isSome) : ∃ bs, optMap f l = some bs := by
  induction l with
  | nil => exact ⟨[], rfl⟩
  | cons x xs ih =>
    obtain ⟨bs, hbs⟩ := ih (fun a ha => h a (List.mem_cons_of_mem _ ha))
    obtain ⟨b, hb⟩ := Option.isSome_iff_exists.mp (h x (List.mem_cons_self _ _))
    exact ⟨b :: bs, by rw [optMap, hb, hbs]⟩

/-! ### C1 -/

/-- C1 counterexample: `merge_segments` performs no bounds check, so merging `[0, 1]` on a one-element
sequence raises an uncaught `IndexError` (embedded as `none`) instead of returning the input unmodified. -/
theorem claim1_counterexample_merge_raises :
    merge_segments [exSeg] [0, 1] = none ∧ merge_segments [exSeg] [0, 1] ≠ some [exSeg] := by
  constructor
  · with_unfolding_all rfl
  · intro h
    have : (none : Option (List Seg)) = some [exSeg] := by
      rw [← h]; with_unfolding_all rfl
    cases this

/-- C1 (amended): merge with fewer than two indices, split with an out-of-range index or a split
point outside the target's span, and shift with an out-of-range index are all no-ops returning the
input sequence; but merge with a selected index at or beyond the length raises (none), it is not a
no-op. -/
theorem claim1_invalid_params_amended :
    (∀ (segments : List Seg) (indices : List ℤ), indices.length < 2 →
      merge_segments segments indices = some segments) ∧
    (∀ (segments : List Seg) (index : ℤ) (t : ℚ), index < 0 ∨ (segments.length : ℤ) ≤ index →
      split_segment segments index t = segments) ∧
    (∀ (segments : List Seg) (i : ℕ) (t : ℚ) (s : Seg), segments.get? i = some s →
      t ≤ s.start ∨ s.end_ ≤ t → split_segment segments (i : ℤ) t = segments) ∧
    (∀ (segments : List Seg) (index : ℤ) (ds de : ℚ), index < 0 ∨ (segments.length : ℤ) ≤ index →
      adjust_timing segments index ds de = segments) ∧
    (∀ (segments : List Seg) (indices : List ℤ) (i : ℤ), 2 ≤ indices.length → i ∈ indices →
      (segments.length : ℤ) ≤ i → merge_segments segments indices = none) := by
  refine ⟨?_, ?_, ?_, ?_, ?_⟩
  · intro segments indices h
    simp [merge_segments, h]
  · intro segments index t h
    simp only [split_segment, if_pos h]
  · intro segments i t s hs hspan
    have hi : i < segments.length := (List.get?_eq_some.mp hs).1
    have hcond : ¬((i : ℤ) < 0 ∨ (segments.length : ℤ) ≤ (i : ℤ)) := by
      push_neg; constructor <;> omega
    rw [split_segment, if_neg hcond]
    have : ((i : ℤ)).toNat = i := Int.toNat_natCast i
    rw [this, hs]
    exact if_pos hspan
  · intro segments index ds de h
    simp only [adjust_timing, if_pos h]
  · intro segments indices i h2 hi hlen
    have hnot : ¬indices.length < 2 := by omega
    have hperm := List.perm_insertionSort (fun a b : ℤ => a ≤ b) indices
    rcases hsort : List.insertionSort (fun a b : ℤ => a ≤ b) indices with _ | ⟨i0, rest⟩
    · exfalso
      have hl := hperm.length_eq
      rw [hsort] at hl
      simp only [List.length_nil] at hl
      omega
    · have hmem : i ∈ i0 :: rest := by rw [← hsort]; exact hperm.mem_iff.mpr hi
      have hnone : optMap (fun j => (pyGet segments j).map Seg.text) (i0 :: rest) = none :=
        optMap_eq_none _ _ i hmem (by rw [pyGet_none_of_ge segments i hlen]; rfl)
      rw [merge_segments, if_neg hnot, hsort]
      rcases hg1 : pyGet segments i0 with _ | s1 <;>
        rcases hg2 : pyGet segments ((i0 :: rest).getLast (List.cons_ne_nil _ _)) with _ | s2 <;>
        simp only [hg1, hg2, hnone]

/-- C1 witness: the no-op branches evaluated at concrete inputs, and the raising merge. -/
theorem claim1_witness :
    merge_segments [exSeg] [5] = some [exSeg] ∧
    split_segment [exSeg] 3 (3/2) = [exSeg] ∧
    split_segment [exSeg] 0 99 = [exSeg] ∧
    adjust_timing [exSeg] (-1) 1 1 = [exSeg] ∧
    merge_segments [exSeg] [0, 7] = none :=
  ⟨claim1_invalid_params_amended.1 [exSeg] [5] (by decide),
   claim1_invalid_params_amended.2.1 [exSeg] 3 (3/2) (by right; decide),
   claim1_invalid_params_amended.2.2.1 [exSeg] 0 99 exSeg (by with_unfolding_all rfl)
     (by right; with_unfolding_all decide),
   claim1_invalid_params_amended.2.2.2.1 [exSeg] (-1) 1 1 (by left; decide),
   claim1_invalid_params_amended.2.2.2.2 [exSeg] [0, 7] 7 (by decide) (by decide) (by decide)⟩

/-! ### C5 -/

theorem enumFrom_map_ite_never (g : Seg → Seg) (j : ℤ) (l : List Seg) :
    ∀ n : ℕ, j < n → (l.enumFrom n).map (fun p => if (p.1 : ℤ) = j then g p.2 else p.2) = l := by
  induction l with
  | nil => intro n _; rfl
  | cons x xs ih =>
    intro n hj
    simp only [List.enumFrom_cons, List.map_cons]
    rw [if_neg (by omega), ih (n + 1) (by omega)]

theorem enumFrom_map_ite_set (g : Seg → Seg) (l : List Seg) :
    ∀ (n i : ℕ) (j : ℤ) (s : Seg), l.get? i = some s → j = (n : ℤ) + i →
      (l.enumFrom n).map (fun p => if (p.1 : ℤ) = j then g p.2 else p.2) = l.set i (g s) := by
  induction l with
  | nil => intro n i j s hs _; cases hs
  | cons x xs ih =>
    intro n i j s hs hj
    cases i with
    | zero =>
      have hx : x = s := by
        have : some x = some s := hs
        injection this
      subst hx
      simp only [List.enumFrom_cons, List.map_cons, List.set]
      rw [if_pos (by omega)]
      rw [enumFrom_map_ite_never g j xs (n + 1) (by omega)]
    | succ i' =>
      have hs' : xs.get? i' = some s := hs
      simp only [List.enumFrom_cons, List.map_cons, List.set]
      rw [if_neg (by omega)]
      rw [ih (n + 1) i' j s hs' (by push_cast; omega)]

theorem adjust_timing_eq_set (segments : List Seg) (i : ℕ) (ds de : ℚ) (s : Seg)
    (hs : segments.get? i = some s) :
    adjust_timing segments (i : ℤ) ds de =
      segments.set i { s with start := max 0 (s.start + ds),
                              end_ := max (max 0 (s.start + ds) + 1 / 10) (s.end_ + de) } := by
  have hi : i < segments.length := (List.get?_eq_some.mp hs).1
  rw [adjust_timing, if_neg (by push_neg; constructor <;> omega)]
  exact enumFrom_map_ite_set
    (fun t => { t with start := max 0 (t.start + ds),
                       end_ := max (max 0 (t.start + ds) + 1 / 10) (t.end_ + de) })
    segments 0 i (i : ℤ) s hs (by omega)

/-- C5 counterexample: shifting a 0.05-second-long segment `[5, 5.05]` globally by `+1` gives
end `6.05`, not the claimed `max (new_start + 0.1) (end + delta) = 6.1`; the resulting duration
is 0.05, below the claimed strictly enforced minimum of 0.1 seconds. -/
theorem claim5_counterexample_global_shift :
    globalShift [{ index := some 1, start := 5, end_ := 101/20, text := ['a'], original := none }] 1 =
      [{ index := some 1, start := 6, end_ := 121/20, text := ['a'], original := none }] ∧
    (121/20 : ℚ) ≠ max (max 0 (5 + 1) + 1/10) (101/20 + 1) ∧
    (121/20 : ℚ) - 6 < 1/10 :=
  ⟨by with_unfolding_all rfl, by with_unfolding_all decide, by with_unfolding_all decide⟩

/-- C5 (amended): the single-segment shift behaves as the claim states — new start is the old start
plus delta floored at 0, new end is the old end plus delta floored at new start + 0.1, only the
target changes, and the 0.1-second minimum duration holds.  The whole-sequence shift instead floors
every end at the absolute value 0.1 seconds: it guarantees end at least 0.1 and a positive duration,
but not a minimum duration of 0.1. -/
theorem claim5_shift_amended :
    (∀ (segments : List Seg) (i : ℕ) (ds de : ℚ) (s : Seg), segments.get? i = some s →
      adjust_timing segments (i : ℤ) ds de =
        segments.set i { s with start := max 0 (s.start + ds),
                                end_ := max (max 0 (s.start + ds) + 1 / 10) (s.end_ + de) } ∧
      max 0 (s.start + ds) + 1 / 10 ≤ max (max 0 (s.start + ds) + 1 / 10) (s.end_ + de)) ∧
    (∀ (segments : List Seg) (d : ℚ), d ≠ 0 →
      globalShift segments d = segments.map (fun s =>
        { s with start := max 0 (s.start + d), end_ := max (1 / 10) (s.end_ + d) }) ∧
      ∀ s ∈ segments, (1 / 10 : ℚ) ≤ max (1 / 10) (s.end_ + d) ∧
        (s.start < s.end_ → max 0 (s.start + d) < max (1 / 10) (s.end_ + d))) := by
  constructor
  · intro segments i ds de s hs
    exact ⟨adjust_timing_eq_set segments i ds de s hs, le_max_left _ _⟩
  · intro segments d hd
    refine ⟨by rw [globalShift, if_pos hd], ?_⟩
    intro s _
    refine ⟨le_max_left _ _, ?_⟩
    intro hlt
    rcases le_or_lt (s.start + d) 0 with h0 | h0
    · rw [max_eq_left h0]
      exact lt_of_lt_of_le (by norm_num) (le_max_left _ _)
    · rw [max_eq_right h0.le]
      exact lt_of_lt_of_le (by linarith) (le_max_right _ _)

/-- C5 witness: the amended behaviors at a concrete segment. -/
theorem claim5_witness :
    adjust_timing [{ index := some 1, start := 5, end_ := 101/20, text := ['a'], original := none }] 0 (-6) (-6) =
      [{ index := some 1, start := 0, end_ := 1/10, text := ['a'], original := none }] ∧
    globalShift [{ index := some 1, start := 5, end_ := 101/20, text := ['a'], original := none }] 1 =
      [{ index := some 1, start := 6, end_ := 121/20, text := ['a'], original := none }] := by
  constructor
  · have h := (claim5_shift_amended.1 [{ index := some 1, start := 5, end_ := 101/20, text := ['a'], original := none }]
      0 (-6) (-6) { index := some 1, start := 5, end_ := 101/20, text := ['a'], original := none } (by with_unfolding_all rfl)).1
    exact h.trans (by with_unfolding_all rfl)
  · have h := (claim5_shift_amended.2 [{ index := some 1, start := 5, end_ := 101/20, text := ['a'], original := none }]
      1 (by norm_num)).1
    exact h.trans (by with_unfolding_all rfl)

/-! ### C7 -/

theorem renumber_length (l : List Seg) : (renumber l).length = l.length := by
  simp [renumber]

theorem renumberAux_map_index (l : List Seg) :
    ∀ n : ℕ, ((l.enumFrom n).map (fun p : ℕ × Seg => { p.2 with index := some ((p.1 : ℤ) + 1) })).map Seg.index
      = (List.range' n l.length).map (fun k : ℕ => some ((k : ℤ) + 1)) := by
  induction l with
  | nil => intro n; rfl
  | cons x xs ih =>
    intro n
    simp only [List.enumFrom_cons, List.map_cons, List.length_cons, List.range'_succ]
    rw [ih (n + 1)]

theorem renumber_map_index (l : List Seg) :
    (renumber l).map Seg.index = (List.range l.length).map (fun k : ℕ => some ((k : ℤ) + 1)) := by
  rw [renumber, List.enum_eq_enumFrom, List.range_eq_range']
  exact renumberAux_map_index l 0

theorem merge_segments_some_shape (segments : List Seg) (indices : List ℤ) (r : List Seg)
    (h2 : 2 ≤ indices.length) (h : merge_segments segments indices = some r) :
    ∃ i0 rest m, List.insertionSort (fun a b : ℤ => a ≤ b) indices = i0 :: rest ∧
      r = renumber (buildMergeGo i0 (i0 :: rest) m 0 segments) := by
  unfold merge_segments at h
  rw [if_neg (by omega)] at h
  split at h
  · rename_i heq
    exfalso
    have hl := (List.perm_insertionSort (fun a b : ℤ => a ≤ b) indices).length_eq
    rw [heq] at hl
    simp only [List.length_nil] at hl
    omega
  · rename_i i0 rest heq
    split at h
    · exact ⟨i0, rest, _, heq, (Option.some_inj.mp h).symm⟩
    · exact Option.noConfusion h

theorem split_segment_applied (segments : List Seg) (i : ℕ) (t : ℚ) (s : Seg)
    (hs : segments.get? i = some s) (h1 : s.start < t) (h2 : t < s.end_) :
    split_segment segments (i : ℤ) t =
      renumber (segments.take i ++
        { index := none, start := s.start, end_ := t,
          text := stripList (s.text.take (splitCharOf s.text s.start s.end_ t)),
          original := none } ::
        { index := none, start := t, end_ := s.end_,
          text := stripList (s.text.drop (splitCharOf s.text s.start s.end_ t)),
          original := none } ::
        segments.drop (i + 1)) := by
  have hi : i < segments.length := (List.get?_eq_some.mp hs).1
  have hcond : ¬((i : ℤ) < 0 ∨ (segments.length : ℤ) ≤ (i : ℤ)) := by
    push_neg; constructor <;> omega
  rw [split_segment, if_neg hcond, Int.toNat_natCast, hs]
  exact if_neg (by push_neg; exact ⟨h1, h2⟩)

theorem adjust_timing_map_index (segments : List Seg) (index : ℤ) (ds de : ℚ) :
    (adjust_timing segments index ds de).map Seg.index = segments.map Seg.index := by
  unfold adjust_timing
  split
  · rfl
  · rw [List.map_map]
    have h1 : (Seg.index ∘ fun p : ℕ × Seg =>
        if (p.1 : ℤ) = index then
          { p.2 with start := max 0 (p.2.start + ds),
                     end_ := max (max 0 (p.2.start + ds) + 1 / 10) (p.2.end_ + de) }
        else p.2) = (Seg.index ∘ Prod.snd) := by
      funext p
      by_cases h : (p.1 : ℤ) = index <;> simp [h]
    rw [h1, ← List.map_map]
    rw [List.enum_eq_enumFrom, List.enumFrom_map_snd]

/-- C7 counterexample: the single-segment shift never renumbers, so a sequence whose only segment
carries index 5 keeps index 5 after a valid shift, not the claimed contiguous 1..N numbering. -/
theorem claim7_counterexample_shift_keeps_index :
    (adjust_timing [{ index := some 5, start := 1, end_ := 2, text := ['a'], original := none }] 0 0 0).map Seg.index
      = [some 5] ∧ [some (5 : ℤ)] ≠ [some (1 : ℤ)] :=
  ⟨by with_unfolding_all rfl, by decide⟩

/-- C7 (amended): merge (when it merges) and split (when it splits) renumber the result's index
fields to exactly 1..N in sequence order even for non-contiguous inputs, but shift leaves every
index field of the input unchanged. -/
theorem claim7_renumber_amended :
    (∀ (segments : List Seg) (indices : List ℤ) (r : List Seg), 2 ≤ indices.length →
      merge_segments segments indices = some r →
      r.map Seg.index = (List.range r.length).map (fun k : ℕ => some ((k : ℤ) + 1))) ∧
    (∀ (segments : List Seg) (i : ℕ) (t : ℚ) (s : Seg), segments.get? i = some s →
      s.start < t → t < s.end_ →
      (split_segment segments (i : ℤ) t).map Seg.index =
        (List.range (split_segment segments (i : ℤ) t).length).map (fun k : ℕ => some ((k : ℤ) + 1))) ∧
    (∀ (segments : List Seg) (index : ℤ) (ds de : ℚ),
      (adjust_timing segments index ds de).map Seg.index = segments.map Seg.index) := by
  refine ⟨?_, ?_, ?_⟩
  · intro segments indices r h2 h
    obtain ⟨i0, rest, m, _, hr⟩ := merge_segments_some_shape segments indices r h2 h
    rw [hr, renumber_map_index, renumber_length]
  · intro segments i t s hs h1 h2
    rw [split_segment_applied segments i t s hs h1 h2, renumber_map_index, renumber_length]
  · intro segments index ds de
    exact adjust_timing_map_index segments index ds de

/-- C7 witness: the amended claim at concrete inputs. -/
theorem claim7_witness :
    (Option.getD (merge_segments [{ index := some 4, start := 0, end_ := 1, text := ['a'], original := none },
        { index := some 9, start := 1, end_ := 2, text := ['b'], original := none }] [0, 1]) []).map Seg.index =
      (List.range 1).map (fun k : ℕ => some ((k : ℤ) + 1)) ∧
    (split_segment [{ index := some 4, start := 0, end_ := 2, text := ['a', ' ', 'b'], original := none }] 0 1).map Seg.index =
      (List.range 2).map (fun k : ℕ => some ((k : ℤ) + 1)) ∧
    (adjust_timing [{ index := some 4, start := 0, end_ := 1, text := ['a'], original := none }] 0 1 1).map Seg.index =
      [{ index := some 4, start := 0, end_ := 1, text := ['a'], original := none }].map Seg.index := by
  refine ⟨?_, ?_, ?_⟩
  · have h := claim7_renumber_amended.1 [{ index := some 4, start := 0, end_ := 1, text := ['a'], original := none },
      { index := some 9, start := 1, end_ := 2, text := ['b'], original := none }] [0, 1]
      (Option.getD (merge_segments [{ index := some 4, start := 0, end_ := 1, text := ['a'], original := none },
        { index := some 9, start := 1, end_ := 2, text := ['b'], original := none }] [0, 1]) [])
      (by decide) (by with_unfolding_all rfl)
    rw [h]
    with_unfolding_all rfl
  · have h := claim7_renumber_amended.2.1 [{ index := some 4, start := 0, end_ := 2, text := ['a', ' ', 'b'], original := none }]
      0 1 { index := some 4, start := 0, end_ := 2, text := ['a', ' ', 'b'], original := none }
      (by with_unfolding_all rfl) (by with_unfolding_all decide) (by with_unfolding_all decide)
    exact h.trans (by with_unfolding_all rfl)
  · exact claim7_renumber_amended.2.2 _ 0 1 1

/-! ### C6 -/

theorem mergeArgAfterGo_map_segData (i0 : ℤ) (sIdx : List ℤ) :
    ∀ (l : List Seg) (i k : ℕ), (mergeArgAfterGo i0 sIdx i k l).map segData = l.map segData := by
  intro l
  induction l with
  | nil => intro i k; rfl
  | cons x xs ih =>
    intro i k
    simp only [mergeArgAfterGo]
    by_cases h1 : (i : ℤ) = i0
    · simp only [if_pos h1, List.map_cons, ih]
    · by_cases h2 : (i : ℤ) ∈ sIdx
      · simp only [if_neg h1, if_pos h2, List.map_cons, ih]
      · simp only [if_neg h1, if_neg h2, List.map_cons, ih, segData]

theorem enumFrom_map_segData (f : ℕ × Seg → Seg) (hf : ∀ p, segData (f p) = segData p.2) :
    ∀ (l : List Seg) (n : ℕ), ((l.enumFrom n).map f).map segData = l.map segData := by
  intro l
  induction l with
  | nil => intro n; rfl
  | cons x xs ih =>
    intro n
    simp only [List.enumFrom_cons, List.map_cons, ih, hf]

/-- C6 counterexample: merging the first two of three segments leaves the caller's list with its
third (shared) dict renumbered in place — the input is no longer equal to what was passed in. -/
theorem claim6_counterexample_merge_mutates_input :
    merge_segments_argAfter
      [{ index := some 7, start := 0, end_ := 1, text := ['a'], original := none },
       { index := some 8, start := 1, end_ := 2, text := ['b'], original := none },
       { index := some 9, start := 2, end_ := 3, text := ['c'], original := none }] [0, 1] ≠
      [{ index := some 7, start := 0, end_ := 1, text := ['a'], original := none },
       { index := some 8, start := 1, end_ := 2, text := ['b'], original := none },
       { index := some 9, start := 2, end_ := 3, text := ['c'], original := none }] := by
  with_unfolding_all decide

/-- C6 (amended): shift copies every dict and is pure; merge and split return new list objects and
preserve the length and the start/end/text/original fields of every input segment, but the
renumbering loop rewrites the `index` keys of the input's segment dicts that are shared with the
result, so the caller's list can observe changed `index` fields after the call. -/
theorem claim6_mutation_amended :
    (∀ (segments : List Seg) (indices : List ℤ),
      (merge_segments_argAfter segments indices).map segData = segments.map segData) ∧
    (∀ (segments : List Seg) (index : ℤ) (t : ℚ),
      (split_segment_argAfter segments index t).map segData = segments.map segData) ∧
    (∀ (segments : List Seg) (index : ℤ) (ds de : ℚ),
      adjust_timing_argAfter segments index ds de = segments) := by
  refine ⟨?_, ?_, ?_⟩
  · intro segments indices
    unfold merge_segments_argAfter
    split
    · rfl
    · split
      · rfl
      · split
        · exact mergeArgAfterGo_map_segData _ _ segments 0 0
        · rfl
  · intro segments index t
    unfold split_segment_argAfter
    split
    · rfl
    · split
      · rfl
      · split
        · rfl
        · rw [List.enum_eq_enumFrom]
          refine enumFrom_map_segData _ ?_ segments 0
          intro p
          by_cases h1 : p.1 < index.toNat
          · simp only [if_pos h1, segData]
          · by_cases h2 : p.1 = index.toNat
            · simp only [if_neg h1, if_pos h2]
            · simp only [if_neg h1, if_neg h2, segData]
  · intro segments index ds de
    rfl

/-! ### C9 -/

/-- C9: the parsers degrade gracefully — a block whose first line fails integer parsing or whose
timing line fails the timing regex is dropped (`none`), an input all of whose blocks fail yields
the empty sequence, and both timestamp decoders fall back to `0.0` when no pattern matches.  The
embedded parsers are total functions, mirroring that the source catches the only exception
(`ValueError` from `int`) that malformed content can raise. -/
theorem claim9_graceful_parsing :
    (∀ content : List Char, (∀ b ∈ splitBlocks (stripList content), parseBlockSrt b = none) →
      parse_srt content = []) ∧
    (∀ content : List Char,
      (∀ b ∈ splitBlocks (stripList (stripVttHeader content)), parseBlockVtt b = none) →
      parse_vtt content = []) ∧
    (∀ (block l0 l1 : List Char) (rest : List (List Char)),
      splitLines (stripList block) = l0 :: l1 :: rest → pyInt (stripList l0) = none →
      parseBlockSrt block = none) ∧
    (∀ (block l0 l1 : List Char) (rest : List (List Char)),
      splitLines (stripList block) = l0 :: l1 :: rest → matchTimingSrt (stripList l1) = none →
      parseBlockSrt block = none) ∧
    (∀ ts : List Char, tsShape12 (stripList ts) = none → parse_timestamp_srt ts = 0) ∧
    (∀ ts : List Char, tsShape12 (stripList ts) = none → tsShape9 (stripList ts) = none →
      parse_timestamp_vtt ts = 0) := by
  refine ⟨?_, ?_, ?_, ?_, ?_, ?_⟩
  · intro content h
    exact List.filterMap_eq_nil_iff.mpr h
  · intro content h
    unfold parse_vtt
    rw [List.filterMap_eq_nil_iff.mpr h]
    rfl
  · intro block l0 l1 rest hlines hint
    unfold parseBlockSrt
    rw [hlines]
    cases rest with
    | nil => rfl
    | cons t0 ts =>
      simp only [hint]
  · intro block l0 l1 rest hlines htime
    unfold parseBlockSrt
    rw [hlines]
    cases rest with
    | nil => rfl
    | cons t0 ts =>
      rcases hpi : pyInt (stripList l0) with _ | idx <;> simp only [hpi, htime]
  · intro ts h
    unfold parse_timestamp_srt
    rw [h]
  · intro ts h1 h2
    unfold parse_timestamp_vtt
    rw [h1, h2]

/-- C9 witness: graceful results at concrete malformed inputs. -/
theorem claim9_witness :
    parse_srt ("no valid blocks here".toList) = [] ∧
    parse_vtt ("WEBVTT\n\ngarbage".toList) = [] ∧
    parseBlockSrt ("x\n00:00:00,000 --> 00:00:01,000\nhi".toList) = none ∧
    parseBlockSrt ("1\nnot a timing line\nhi".toList) = none ∧
    parse_timestamp_srt ("nope".toList) = 0 ∧
    parse_timestamp_vtt ("nope".toList) = 0 :=
  ⟨claim9_graceful_parsing.1 _ (by with_unfolding_all decide),
   claim9_graceful_parsing.2.1 _ (by with_unfolding_all decide),
   claim9_graceful_parsing.2.2.1 _ ("x".toList) ("00:00:00,000 --> 00:00:01,000".toList)
     [("hi".toList)] (by with_unfolding_all rfl) (by with_unfolding_all rfl),
   claim9_graceful_parsing.2.2.2.1 _ ("1".toList) ("not a timing line".toList)
     [("hi".toList)] (by with_unfolding_all rfl) (by with_unfolding_all rfl),
   claim9_graceful_parsing.2.2.2.2.1 _ (by with_unfolding_all rfl),
   claim9_graceful_parsing.2.2.2.2.2 _ (by with_unfolding_all rfl) (by with_unfolding_all rfl)⟩

/-! ### merge characterization (C3, C10) -/

theorem sorted_le_getLast :
    ∀ (l : List ℤ), List.Sorted (fun a b : ℤ => a ≤ b) l →
      ∀ (hne : l ≠ []) (x : ℤ), x ∈ l → x ≤ l.getLast hne := by
  intro l
  induction l with
  | nil => intro _ hne; exact absurd rfl hne
  | cons a rest ih =>
    intro hs hne x hx
    rcases List.sorted_cons.mp hs with ⟨hall, hrest⟩
    rcases List.mem_cons.mp hx with rfl | hx'
    · rcases eq_or_ne rest [] with hr | hr
      · subst hr; simp [List.getLast]
      · rw [List.getLast_cons hr]
        exact hall _ (List.getLast_mem hr)
    · rcases eq_or_ne rest [] with hr | hr
      · subst hr; cases hx'
      · rw [List.getLast_cons hr]
        exact ih hrest hr x hx'

theorem sorted_head_eq_min (i0 a : ℤ) (rest : List ℤ)
    (hs : List.Sorted (fun x y : ℤ => x ≤ y) (a :: rest))
    (hmem : i0 ∈ a :: rest) (hmin : ∀ j ∈ a :: rest, i0 ≤ j) : a = i0 := by
  rcases List.mem_cons.mp hmem with rfl | h
  · rfl
  · exact le_antisymm ((List.sorted_cons.mp hs).1 i0 h) (hmin a (List.mem_cons_self a rest))

theorem buildMergeGo_eq_filterMap (i0 : ℤ) (sIdx : List ℤ) (m : Seg) :
    ∀ (l : List Seg) (n : ℕ), buildMergeGo i0 sIdx m n l =
      (l.enumFrom n).filterMap (fun p =>
        if (p.1 : ℤ) = i0 then some m else if (p.1 : ℤ) ∈ sIdx then none else some p.2) := by
  intro l
  induction l with
  | nil => intro n; rfl
  | cons x xs ih =>
    intro n
    simp only [buildMergeGo, List.enumFrom_cons, List.filterMap_cons]
    by_cases h1 : (n : ℤ) = i0
    · simp only [if_pos h1, ih]
    · by_cases h2 : (n : ℤ) ∈ sIdx
      · simp only [if_neg h1, if_pos h2, ih]
      · simp only [if_neg h1, if_neg h2, ih]

theorem filterMap_enumFrom_keep (f : ℕ × Seg → Option Seg) :
    ∀ (l : List Seg) (n : ℕ), (∀ p ∈ l.enumFrom n, f p = some p.2) →
      (l.enumFrom n).filterMap f = l := by
  intro l
  induction l with
  | nil => intro n _; rfl
  | cons x xs ih =>
    intro n h
    simp only [List.enumFrom_cons, List.filterMap_cons]
    rw [h (n, x) (List.mem_cons_self _ _)]
    rw [ih (n + 1) (fun p hp => h p (List.mem_cons_of_mem _ hp))]

theorem filterMap_drop_length (sIdx : List ℤ) :
    ∀ (B : List Seg) (n : ℕ),
      ((B.enumFrom n).filterMap (fun p => if (p.1 : ℤ) ∈ sIdx then none else some p.2)).length
        + (List.range' n B.length).countP (fun q : ℕ => decide ((q : ℤ) ∈ sIdx)) = B.length := by
  intro B
  induction B with
  | nil => intro n; rfl
  | cons x xs ih =>
    intro n
    rw [List.enumFrom_cons, List.length_cons, List.range'_succ]
    simp only [List.filterMap_cons, List.countP_cons]
    by_cases h : (n : ℤ) ∈ sIdx
    · simp [h]
      have := ih (n + 1)
      omega
    · simp [h]
      have := ih (n + 1)
      omega

theorem countP_range'_mem (S : List ℤ) (a len : ℕ) (hnd : S.Nodup)
    (hsub : ∀ x ∈ S, (a : ℤ) ≤ x ∧ x < (a : ℤ) + len) :
    (List.range' a len).countP (fun q : ℕ => decide ((q : ℤ) ∈ S)) = S.length := by
  rw [List.countP_eq_length_filter]
  have hinj : Function.Injective (fun n : ℕ => (n : ℤ)) := fun x y hxy => Int.natCast_inj.mp hxy
  have hFnd : ((List.range' a len).filter (fun q : ℕ => decide ((q : ℤ) ∈ S))).Nodup :=
    (List.nodup_range' a len).filter _
  have hFZnd : (((List.range' a len).filter (fun q : ℕ => decide ((q : ℤ) ∈ S))).map
      (fun n : ℕ => (n : ℤ))).Nodup := hFnd.map hinj
  have h1 : (((List.range' a len).filter (fun q : ℕ => decide ((q : ℤ) ∈ S))).map
      (fun n : ℕ => (n : ℤ))) ⊆ S := by
    intro x hx
    rcases List.mem_map.mp hx with ⟨q, hq, rfl⟩
    exact of_decide_eq_true (List.mem_filter.mp hq).2
  have h2 : S ⊆ (((List.range' a len).filter (fun q : ℕ => decide ((q : ℤ) ∈ S))).map
      (fun n : ℕ => (n : ℤ))) := by
    intro x hx
    obtain ⟨hxa, hxl⟩ := hsub x hx
    have hx0 : 0 ≤ x := le_trans (Int.natCast_nonneg a) hxa
    have hmr : x.toNat ∈ List.range' a len := by
      rw [List.mem_range'_1]
      omega
    have hdec : decide ((x.toNat : ℤ) ∈ S) = true :=
      decide_eq_true (by rwa [Int.toNat_of_nonneg hx0])
    refine List.mem_map.mpr ⟨x.toNat, List.mem_filter.mpr ⟨hmr, hdec⟩, by omega⟩
  have hle1 := (List.subperm_of_subset hFZnd h1).length_le
  have hle2 := (List.subperm_of_subset hnd h2).length_le
  rw [List.length_map] at hle1 hle2
  omega

theorem buildMerge_decomp (segments : List Seg) (indices : List ℤ) (i0 : ℤ) (rest : List ℤ) (m : Seg)
    (hperm : (i0 :: rest).Perm indices)
    (h0 : 0 ≤ i0) (hlt : i0 < (segments.length : ℤ))
    (hmin : ∀ j ∈ indices, i0 ≤ j) :
    buildMergeGo i0 (i0 :: rest) m 0 segments =
      segments.take i0.toNat ++ m :: removeSel segments indices (i0.toNat + 1) := by
  have hi0n : i0.toNat < segments.length := by omega
  have hcast : ((i0.toNat : ℕ) : ℤ) = i0 := Int.toNat_of_nonneg h0
  rw [buildMergeGo_eq_filterMap]
  conv_lhs =>
    rw [show segments = segments.take i0.toNat ++ segments.drop i0.toNat from
      (List.take_append_drop _ _).symm]
  rw [List.drop_eq_getElem_cons hi0n, List.enumFrom_append, List.filterMap_append]
  have hlentake : (segments.take i0.toNat).length = i0.toNat := by
    rw [List.length_take]
    omega
  have hkeep : ((segments.take i0.toNat).enumFrom 0).filterMap
      (fun p => if (p.1 : ℤ) = i0 then some m else if (p.1 : ℤ) ∈ i0 :: rest then none else some p.2)
      = segments.take i0.toNat := by
    apply filterMap_enumFrom_keep
    intro p hp
    have hplt : p.1 < 0 + (segments.take i0.toNat).length := List.fst_lt_add_of_mem_enumFrom hp
    rw [hlentake] at hplt
    have hne : ¬((p.1 : ℤ) = i0) := by omega
    have hnm : ¬((p.1 : ℤ) ∈ i0 :: rest) := by
      intro hmem
      have := hmin _ (hperm.mem_iff.mp hmem)
      omega
    simp only [if_neg hne, if_neg hnm]
  rw [hkeep, hlentake]
  congr 1
  rw [Nat.zero_add, List.enumFrom_cons]
  rw [List.filterMap_cons]
  simp only [hcast, eq_self_iff_true, if_true]
  congr 1
  rw [removeSel]
  apply List.filterMap_congr
  intro p hp
  have hge : i0.toNat + 1 ≤ p.1 := List.le_fst_of_mem_enumFrom hp
  have hne : ¬((p.1 : ℤ) = i0) := by omega
  rw [if_neg hne]
  exact if_congr hperm.mem_iff rfl rfl

theorem merge_characterization (segments : List Seg) (indices : List ℤ) (i0 iL : ℤ)
    (h2 : 2 ≤ indices.length) (_hnd : indices.Nodup)
    (hv : ∀ i ∈ indices, 0 ≤ i ∧ i < (segments.length : ℤ))
    (hi0 : i0 ∈ indices) (hi0m : ∀ j ∈ indices, i0 ≤ j)
    (hiL : iL ∈ indices) (hiLm : ∀ j ∈ indices, j ≤ iL) :
    ∃ first last texts,
      pyGet segments i0 = some first ∧ pyGet segments iL = some last ∧
      optMap (fun i => (pyGet segments i).map Seg.text)
        (List.insertionSort (fun a b : ℤ => a ≤ b) indices) = some texts ∧
      merge_segments segments indices =
        some (renumber (segments.take i0.toNat ++
          ({ index := none, start := first.start, end_ := last.end_,
             text := joinSpace texts, original := none } : Seg) ::
          removeSel segments indices (i0.toNat + 1))) := by
  have hperm := List.perm_insertionSort (fun a b : ℤ => a ≤ b) indices
  have hsorted := List.sorted_insertionSort (fun a b : ℤ => a ≤ b) indices
  rcases hsort : List.insertionSort (fun a b : ℤ => a ≤ b) indices with _ | ⟨a, rest⟩
  · exfalso
    have hl := hperm.length_eq
    rw [hsort] at hl
    simp only [List.length_nil] at hl
    omega
  · rw [hsort] at hperm hsorted
    have ha : a = i0 := sorted_head_eq_min i0 a rest hsorted
      (hperm.mem_iff.mpr hi0) (fun j hj => hi0m j (hperm.mem_iff.mp hj))
    subst ha
    have hlast : (a :: rest).getLast (List.cons_ne_nil _ _) = iL := by
      apply le_antisymm
      · exact hiLm _ (hperm.subset (List.getLast_mem _))
      · exact sorted_le_getLast _ hsorted _ iL (hperm.mem_iff.mpr hiL)
    obtain ⟨hf0, hflt⟩ := hv a hi0
    obtain ⟨first, hfirst⟩ := pyGet_valid segments a hf0 hflt
    obtain ⟨hL0, hLlt⟩ := hv iL hiL
    obtain ⟨last, hlastget⟩ := pyGet_valid segments iL hL0 hLlt
    obtain ⟨texts, htexts⟩ := optMap_all_some (fun i => (pyGet segments i).map Seg.text) (a :: rest)
      (by
        intro i hi
        obtain ⟨hi0', hilt'⟩ := hv i (hperm.mem_iff.mp hi)
        obtain ⟨s, hs⟩ := pyGet_valid segments i hi0' hilt'
        simp [hs])
    refine ⟨first, last, texts, hfirst, hlastget, ?_, ?_⟩
    · exact htexts
    rw [merge_segments, if_neg (by omega), hsort]
    simp only [hlast, hfirst, hlastget, htexts]
    rw [buildMerge_decomp segments indices a rest _ hperm hf0 hflt hi0m]

theorem renumber_map_segData (l : List Seg) : (renumber l).map segData = l.map segData := by
  rw [renumber, List.enum_eq_enumFrom]
  exact enumFrom_map_segData (fun p => { p.2 with index := some ((p.1 : ℤ) + 1) })
    (fun p => rfl) l 0

theorem removeSel_length (segments : List Seg) (indices : List ℤ) (i0 : ℤ)
    (hnd : indices.Nodup) (hi0 : i0 ∈ indices) (hmin : ∀ j ∈ indices, i0 ≤ j)
    (hv : ∀ i ∈ indices, 0 ≤ i ∧ i < (segments.length : ℤ)) :
    (removeSel segments indices (i0.toNat + 1)).length + indices.length
      = segments.length - i0.toNat := by
  obtain ⟨h0, hlt⟩ := hv i0 hi0
  have hi0n : i0.toNat < segments.length := by omega
  have hcast : ((i0.toNat : ℕ) : ℤ) = i0 := Int.toNat_of_nonneg h0
  have e1 := filterMap_drop_length indices (segments.drop (i0.toNat + 1)) (i0.toNat + 1)
  have hBlen : (segments.drop (i0.toNat + 1)).length = segments.length - (i0.toNat + 1) :=
    List.length_drop _ _
  have e2 : (List.range' (i0.toNat + 1) (segments.drop (i0.toNat + 1)).length).countP
      (fun q : ℕ => decide ((q : ℤ) ∈ indices))
      = (List.range' (i0.toNat + 1) (segments.drop (i0.toNat + 1)).length).countP
      (fun q : ℕ => decide ((q : ℤ) ∈ indices.erase i0)) := by
    apply List.countP_congr
    intro q hq
    have hqge : i0.toNat + 1 ≤ q := (List.mem_range'_1.mp hq).1
    have hqne : (q : ℤ) ≠ i0 := by omega
    show decide ((q : ℤ) ∈ indices) = true ↔ decide ((q : ℤ) ∈ indices.erase i0) = true
    simp only [decide_eq_true_eq]
    rw [hnd.mem_erase_iff]
    constructor
    · intro hm; exact ⟨hqne, hm⟩
    · intro hm; exact hm.2
  have e3 : (List.range' (i0.toNat + 1) (segments.drop (i0.toNat + 1)).length).countP
      (fun q : ℕ => decide ((q : ℤ) ∈ indices.erase i0)) = (indices.erase i0).length := by
    apply countP_range'_mem _ _ _ (hnd.erase i0)
    intro x hx
    obtain ⟨hxne, hxmem⟩ := hnd.mem_erase_iff.mp hx
    obtain ⟨hx0, hxlt⟩ := hv x hxmem
    have := hmin x hxmem
    constructor
    · push_cast; omega
    · push_cast; omega
  have e4 : (indices.erase i0).length = indices.length - 1 := List.length_erase_of_mem hi0
  have e5 : 1 ≤ indices.length := List.length_pos.mpr (List.ne_nil_of_mem hi0)
  rw [removeSel] at *
  omega

/-- C3: for a set of at least two valid indices (not necessarily pre-sorted), merge shortens the
sequence by (number of indices - 1); the merged record carries the first (lowest-index) selected
segment's start, the last selected segment's end, the selected texts joined by single spaces in
ascending-index order, and sits at the position of the first selected index, with every
non-selected segment keeping its relative order.  In particular merging an adjacent pair `{i, i+1}`
gives length one less with the merged element start = seq[i].start, end = seq[i+1].end,
text = seq[i].text + " " + seq[i+1].text. -/
theorem claim3_merge_spec :
    (∀ (segments : List Seg) (indices : List ℤ) (i0 iL : ℤ),
      2 ≤ indices.length → indices.Nodup →
      (∀ i ∈ indices, 0 ≤ i ∧ i < (segments.length : ℤ)) →
      i0 ∈ indices → (∀ j ∈ indices, i0 ≤ j) →
      iL ∈ indices → (∀ j ∈ indices, j ≤ iL) →
      ∃ r first last texts,
        merge_segments segments indices = some r ∧
        pyGet segments i0 = some first ∧ pyGet segments iL = some last ∧
        optMap (fun i => (pyGet segments i).map Seg.text)
          (List.insertionSort (fun a b : ℤ => a ≤ b) indices) = some texts ∧
        r.length + indices.length = segments.length + 1 ∧
        r.map segData = (segments.take i0.toNat).map segData ++
          (first.start, last.end_, joinSpace texts, (none : Option (List Char))) ::
          (removeSel segments indices (i0.toNat + 1)).map segData) ∧
    (∀ (segments : List Seg) (i : ℕ) (s1 s2 : Seg),
      segments.get? i = some s1 → segments.get? (i + 1) = some s2 →
      ∃ r, merge_segments segments [(i : ℤ), (i : ℤ) + 1] = some r ∧
        r.length + 1 = segments.length ∧
        (r.map segData).get? i = some (s1.start, s2.end_, s1.text ++ ' ' :: s2.text,
          (none : Option (List Char)))) := by
  have general : ∀ (segments : List Seg) (indices : List ℤ) (i0 iL : ℤ),
      2 ≤ indices.length → indices.Nodup →
      (∀ i ∈ indices, 0 ≤ i ∧ i < (segments.length : ℤ)) →
      i0 ∈ indices → (∀ j ∈ indices, i0 ≤ j) →
      iL ∈ indices → (∀ j ∈ indices, j ≤ iL) →
      ∃ r first last texts,
        merge_segments segments indices = some r ∧
        pyGet segments i0 = some first ∧ pyGet segments iL = some last ∧
        optMap (fun i => (pyGet segments i).map Seg.text)
          (List.insertionSort (fun a b : ℤ => a ≤ b) indices) = some texts ∧
        r.length + indices.length = segments.length + 1 ∧
        r.map segData = (segments.take i0.toNat).map segData ++
          (first.start, last.end_, joinSpace texts, (none : Option (List Char))) ::
          (removeSel segments indices (i0.toNat + 1)).map segData := by
    intro segments indices i0 iL h2 hnd hv hi0 hi0m hiL hiLm
    obtain ⟨first, last, texts, hfirst, hlast, htexts, hmerge⟩ :=
      merge_characterization segments indices i0 iL h2 hnd hv hi0 hi0m hiL hiLm
    obtain ⟨h0, hlt⟩ := hv i0 hi0
    have hi0n : i0.toNat < segments.length := by omega
    have hlentake : (segments.take i0.toNat).length = i0.toNat := by
      rw [List.length_take]; omega
    have hrlen := removeSel_length segments indices i0 hnd hi0 hi0m hv
    refine ⟨_, first, last, texts, hmerge, hfirst, hlast, htexts, ?_, ?_⟩
    · rw [renumber_length, List.length_append, List.length_cons, hlentake]
      omega
    · rw [renumber_map_segData, List.map_append, List.map_cons]
      rfl
  refine ⟨general, ?_⟩
  intro segments i s1 s2 hs1 hs2
  have hlen2 : i + 1 < segments.length := (List.get?_eq_some.mp hs2).1
  have hnd : ([(i : ℤ), (i : ℤ) + 1]).Nodup := by
    refine List.nodup_cons.mpr ⟨?_, List.nodup_singleton _⟩
    simp only [List.mem_singleton]
    omega
  have hv : ∀ j ∈ [(i : ℤ), (i : ℤ) + 1], 0 ≤ j ∧ j < (segments.length : ℤ) := by
    intro j hj
    rcases List.mem_cons.mp hj with rfl | hj'
    · constructor <;> omega
    · rcases List.mem_singleton.mp hj' with rfl
      constructor <;> omega
  obtain ⟨r, first, last, texts, hmerge, hfirst, hlast, htexts, hlen, hmap⟩ :=
    general segments [(i : ℤ), (i : ℤ) + 1] (i : ℤ) ((i : ℤ) + 1)
      (by simp) hnd hv (List.mem_cons_self _ _)
      (by intro j hj; rcases List.mem_cons.mp hj with rfl | hj'; · omega
          · rcases List.mem_singleton.mp hj' with rfl; omega)
      (by simp)
      (by intro j hj; rcases List.mem_cons.mp hj with rfl | hj'; · omega
          · rcases List.mem_singleton.mp hj' with rfl; omega)
  have hfirst' : first = s1 := by
    rw [pyGet_nonneg _ _ (by omega), Int.toNat_natCast, hs1] at hfirst
    exact (Option.some_inj.mp hfirst).symm
  have hlast' : last = s2 := by
    rw [pyGet_nonneg _ _ (by omega), show ((i : ℤ) + 1).toNat = i + 1 by omega, hs2] at hlast
    exact (Option.some_inj.mp hlast).symm
  have hsorteq : List.insertionSort (fun a b : ℤ => a ≤ b) [(i : ℤ), (i : ℤ) + 1]
      = [(i : ℤ), (i : ℤ) + 1] := by
    simp only [List.insertionSort, List.orderedInsert]
    rw [if_pos (by omega)]
  rw [hsorteq] at htexts
  have htexts' : texts = [s1.text, s2.text] := by
    rw [show optMap (fun j => (pyGet segments j).map Seg.text) [(i : ℤ), (i : ℤ) + 1]
        = some [s1.text, s2.text] from ?_] at htexts
    · exact (Option.some_inj.mp htexts).symm
    · rw [optMap, optMap, optMap]
      rw [pyGet_nonneg _ _ (by omega), Int.toNat_natCast, hs1]
      rw [pyGet_nonneg _ _ (by omega), show ((i : ℤ) + 1).toNat = i + 1 by omega, hs2]
      rfl
  subst hfirst' hlast' htexts'
  refine ⟨r, hmerge, by simpa using hlen, ?_⟩
  rw [hmap]
  have htakelen : ((segments.take ((i : ℤ)).toNat).map segData).length = i := by
    rw [List.length_map, List.length_take, Int.toNat_natCast]
    omega
  rw [List.get?_append_right (by omega), htakelen, Nat.sub_self]
  rw [Int.toNat_natCast]
  rfl

/-- C3 witness: merging the adjacent pair `{0, 1}` of a three-segment sequence. -/
theorem claim3_witness :
    ∃ r, merge_segments [wSegA, wSegB, wSegC] [(0 : ℤ), (0 : ℤ) + 1] = some r ∧
      r.length + 1 = 3 ∧
      (r.map segData).get? 0 = some (wSegA.start, wSegB.end_,
        wSegA.text ++ ' ' :: wSegB.text, (none : Option (List Char))) :=
  claim3_merge_spec.2 [wSegA, wSegB, wSegC] 0 wSegA wSegB
    (by with_unfolding_all rfl) (by with_unfolding_all rfl)

/-- C10: when every selected segment carries a non-empty `original` field, the merged segment
built by `merge_segments` carries no `original` field at all (its dict is built from start, end
and text only, plus the renumbered index). -/
theorem claim10_merge_discards_original (segments : List Seg) (indices : List ℤ) (i0 iL : ℤ)
    (h2 : 2 ≤ indices.length) (hnd : indices.Nodup)
    (hv : ∀ i ∈ indices, 0 ≤ i ∧ i < (segments.length : ℤ))
    (horig : ∀ i ∈ indices, ∃ s o, pyGet segments i = some s ∧ s.original = some o ∧ o ≠ [])
    (hi0 : i0 ∈ indices) (hi0m : ∀ j ∈ indices, i0 ≤ j)
    (hiL : iL ∈ indices) (hiLm : ∀ j ∈ indices, j ≤ iL) :
    ∃ r m, merge_segments segments indices = some r ∧
      r.get? i0.toNat = some m ∧ m.original = none := by
  obtain ⟨first, last, texts, hfirst, hlast, htexts, hmerge⟩ :=
    merge_characterization segments indices i0 iL h2 hnd hv hi0 hi0m hiL hiLm
  obtain ⟨h0, hlt⟩ := hv i0 hi0
  have hi0n : i0.toNat < segments.length := by omega
  have hmapsd : ((renumber (segments.take i0.toNat ++
      ({ index := none, start := first.start, end_ := last.end_,
         text := joinSpace texts, original := none } : Seg) ::
      removeSel segments indices (i0.toNat + 1))).map segData).get? i0.toNat
      = some (first.start, last.end_, joinSpace texts, (none : Option (List Char))) := by
    rw [renumber_map_segData, List.map_append, List.map_cons]
    have htakelen : ((segments.take i0.toNat).map segData).length = i0.toNat := by
      rw [List.length_map, List.length_take]; omega
    rw [List.get?_append_right (by omega), htakelen, Nat.sub_self]
    rfl
  rw [List.get?_map] at hmapsd
  obtain ⟨m, hm, hsd⟩ := Option.map_eq_some'.mp hmapsd
  refine ⟨_, m, hmerge, hm, ?_⟩
  have := congrArg (fun t : ℚ × ℚ × List Char × Option (List Char) => t.2.2.2) hsd
  exact this

/-- C10 witness: two translated segments merged; the merged dict's original key is absent. -/
theorem claim10_witness :
    ∃ r m, merge_segments [wSegA, wSegB] [0, 1] = some r ∧
      r.get? 0 = some m ∧ m.original = none := by
  have h := claim10_merge_discards_original [wSegA, wSegB] [0, 1] 0 1
    (by decide) (by decide)
    (by intro i hi
        rcases List.mem_cons.mp hi with rfl | hi'
        · exact ⟨by decide, by decide⟩
        · rcases List.mem_singleton.mp hi' with rfl
          exact ⟨by decide, by decide⟩)
    (by intro i hi
        rcases List.mem_cons.mp hi with rfl | hi'
        · exact ⟨wSegA, ['o'], by with_unfolding_all rfl, by with_unfolding_all rfl, by decide⟩
        · rcases List.mem_singleton.mp hi' with rfl
          exact ⟨wSegB, ['p'], by with_unfolding_all rfl, by with_unfolding_all rfl, by decide⟩)
    (by decide)
    (by intro j hj
        rcases List.mem_cons.mp hj with rfl | hj'
        · omega
        · rcases List.mem_singleton.mp hj' with rfl; omega)
    (by decide)
    (by intro j hj
        rcases List.mem_cons.mp hj with rfl | hj'
        · omega
        · rcases List.mem_singleton.mp hj' with rfl; omega)
  exact h

/-! ### C2 -/

set_option maxRecDepth 4000 in
theorem pad2_eq : ∀ n : ℕ, n < 100 → padZero 2 (n : ℤ) = [digitChar (n / 10), digitChar (n % 10)] := by
  decide

set_option maxRecDepth 4000 in
theorem pad3_eq : ∀ n : ℕ, n < 1000 → padZero 3 (n : ℤ) =
    [digitChar (n / 100), digitChar (n / 10 % 10), digitChar (n % 10)] := by
  decide

theorem digitChar_isDigit : ∀ d : ℕ, d < 10 → (digitChar d).isDigit = true := by decide

theorem digitChar_notSpace : ∀ d : ℕ, d < 10 → isPySpace (digitChar d) = false := by decide

theorem d2v_digit : ∀ x : ℕ, x < 10 → ∀ y : ℕ, y < 10 →
    d2v (digitChar x) (digitChar y) = 10 * x + y := by decide

set_option maxRecDepth 4000 in
theorem d3v_digit : ∀ x : ℕ, x < 10 → ∀ y : ℕ, y < 10 → ∀ z : ℕ, z < 10 →
    d3v (digitChar x) (digitChar y) (digitChar z) = 100 * x + 10 * y + z := by decide

theorem pyTrunc_of_nonneg (x : ℚ) (h : 0 ≤ x) : pyTrunc x = ⌊x⌋ := if_pos h

theorem pyMod_nonneg (a m : ℚ) (hm : 0 < m) : 0 ≤ pyMod a m := by
  rw [pyMod]
  have h := Int.floor_le (a / m)
  have h2 : (⌊a / m⌋ : ℚ) * m ≤ a := (le_div_iff hm).mp h
  linarith

theorem pyMod_lt (a m : ℚ) (hm : 0 < m) : pyMod a m < m := by
  rw [pyMod]
  have h := Int.lt_floor_add_one (a / m)
  have h2 : a < ((⌊a / m⌋ : ℚ) + 1) * m := (div_lt_iff hm).mp h
  linarith

theorem srt_fields (s : ℚ) (h0 : 0 ≤ s) (H M S MS : ℤ)
    (hH : H = ⌊s / 3600⌋) (hM : M = ⌊pyMod s 3600 / 60⌋)
    (hS : S = pyTrunc (pyMod s 60)) (hMS : MS = pyTrunc ((s - (pyTrunc s : ℚ)) * 1000)) :
    0 ≤ H ∧ 0 ≤ M ∧ M < 60 ∧ 0 ≤ S ∧ S < 60 ∧ 0 ≤ MS ∧ MS < 1000 ∧
    3600000 * H + 60000 * M + 1000 * S + MS = ⌊1000 * s⌋ := by
  have hr0 : 0 ≤ pyMod s 3600 := pyMod_nonneg s 3600 (by norm_num)
  have hr1 : pyMod s 3600 < 3600 := pyMod_lt s 3600 (by norm_num)
  have hq0 : 0 ≤ pyMod s 60 := pyMod_nonneg s 60 (by norm_num)
  have hq1 : pyMod s 60 < 60 := pyMod_lt s 60 (by norm_num)
  have hsfl : pyTrunc s = ⌊s⌋ := pyTrunc_of_nonneg s h0
  have hfr0 : (0 : ℚ) ≤ s - (⌊s⌋ : ℚ) := by
    have := Int.floor_le s
    linarith
  have hfr1 : s - (⌊s⌋ : ℚ) < 1 := by
    have := Int.lt_floor_add_one s
    linarith
  set r := pyMod s 3600 with hr_def
  set q := pyMod s 60 with hq_def
  have hS' : S = ⌊q⌋ := by rw [hS, pyTrunc_of_nonneg _ hq0]
  have hsr : s = 3600 * (H : ℚ) + r := by
    rw [hH, hr_def, pyMod]
    push_cast
    ring
  have hq_expand : q = s - 60 * (⌊s / 60⌋ : ℚ) := by
    rw [hq_def, pyMod]
  have hH0 : 0 ≤ H := by
    rw [hH]
    exact Int.floor_nonneg.mpr (by positivity)
  have hM0 : 0 ≤ M := by
    rw [hM]
    exact Int.floor_nonneg.mpr (by positivity)
  have hM1 : M < 60 := by
    rw [hM]
    apply Int.floor_lt.mpr
    push_cast
    rw [div_lt_iff (by norm_num : (0:ℚ) < 60)]
    linarith
  have hS0 : 0 ≤ S := by
    rw [hS']
    exact Int.floor_nonneg.mpr hq0
  have hS1 : S < 60 := by
    rw [hS']
    apply Int.floor_lt.mpr
    push_cast
    linarith
  have hMS' : MS = ⌊(s - (⌊s⌋ : ℚ)) * 1000⌋ := by
    rw [hMS, hsfl]
    exact pyTrunc_of_nonneg _ (by nlinarith)
  have hMS0 : 0 ≤ MS := by
    rw [hMS']
    exact Int.floor_nonneg.mpr (by nlinarith)
  have hMS1 : MS < 1000 := by
    rw [hMS']
    apply Int.floor_lt.mpr
    push_cast
    nlinarith
  have hA : ⌊s / 60⌋ = 60 * H + M := by
    have heq : s / 60 = ((60 * H : ℤ) : ℚ) + r / 60 := by
      push_cast
      linear_combination hsr / 60
    rw [heq, Int.floor_int_add, hM]
  have hB : q = r - 60 * (M : ℚ) := by
    rw [hq_expand, hA]
    push_cast
    linarith [hsr]
  have hC : ⌊s⌋ = 3600 * H + 60 * M + S := by
    have heq : s = ((3600 * H + 60 * M : ℤ) : ℚ) + q := by
      rw [hB]
      push_cast
      linarith [hsr]
    rw [heq, Int.floor_int_add, hS']
  have hD : MS = ⌊q * 1000⌋ - 1000 * S := by
    have heq : (s - (⌊s⌋ : ℚ)) * 1000 = q * 1000 - ((1000 * S : ℤ) : ℚ) := by
      rw [hC, hB]
      push_cast
      linarith [hsr]
    rw [hMS', heq, Int.floor_sub_int]
  have hE : ⌊1000 * s⌋ = 3600000 * H + 60000 * M + ⌊q * 1000⌋ := by
    have heq : 1000 * s = ((3600000 * H + 60000 * M : ℤ) : ℚ) + q * 1000 := by
      rw [hB]
      push_cast
      linarith [hsr]
    rw [heq, Int.floor_int_add]
  exact ⟨hH0, hM0, hM1, hS0, hS1, hMS0, hMS1, by omega⟩

theorem stripList_eq_self (l : List Char)
    (hh : ∀ c, l.head? = some c → isPySpace c = false)
    (hl : ∀ c, l.reverse.head? = some c → isPySpace c = false) :
    stripList l = l := by
  unfold stripList
  have h1 : l.dropWhile isPySpace = l := by
    cases l with
    | nil => rfl
    | cons c cs =>
      rw [List.dropWhile_cons, hh c rfl]
      simp
  rw [h1]
  have h2 : l.reverse.dropWhile isPySpace = l.reverse := by
    cases hr : l.reverse with
    | nil => rfl
    | cons c cs =>
      rw [List.dropWhile_cons, hl c (by rw [hr]; rfl)]
      simp
  rw [h2, List.reverse_reverse]

theorem format_srt_explicit (s : ℚ) (h0 : 0 ≤ s) (hlt : s < 360000) :
    ∃ Hn Mn Sn MSn : ℕ, Hn < 100 ∧ Mn < 60 ∧ Sn < 60 ∧ MSn < 1000 ∧
      3600000 * (Hn : ℤ) + 60000 * (Mn : ℤ) + 1000 * (Sn : ℤ) + (MSn : ℤ) = ⌊1000 * s⌋ ∧
      format_timestamp_srt s =
        [digitChar (Hn / 10), digitChar (Hn % 10), ':',
         digitChar (Mn / 10), digitChar (Mn % 10), ':',
         digitChar (Sn / 10), digitChar (Sn % 10), ',',
         digitChar (MSn / 100), digitChar (MSn / 10 % 10), digitChar (MSn % 10)] := by
  obtain ⟨hH0, hM0, hM1, hS0, hS1, hMS0, hMS1, hid⟩ :=
    srt_fields s h0 ⌊s / 3600⌋ ⌊pyMod s 3600 / 60⌋ (pyTrunc (pyMod s 60))
      (pyTrunc ((s - (pyTrunc s : ℚ)) * 1000)) rfl rfl rfl rfl
  have hH1 : ⌊s / 3600⌋ < 100 := by
    apply Int.floor_lt.mpr
    push_cast
    rw [div_lt_iff (by norm_num : (0:ℚ) < 3600)]
    linarith
  refine ⟨⌊s / 3600⌋.toNat, ⌊pyMod s 3600 / 60⌋.toNat, (pyTrunc (pyMod s 60)).toNat,
    (pyTrunc ((s - (pyTrunc s : ℚ)) * 1000)).toNat, by omega, by omega, by omega, by omega,
    by push_cast; omega, ?_⟩
  rw [format_timestamp_srt]
  rw [show ⌊s / 3600⌋ = ((⌊s / 3600⌋.toNat : ℕ) : ℤ) by omega,
      show ⌊pyMod s 3600 / 60⌋ = ((⌊pyMod s 3600 / 60⌋.toNat : ℕ) : ℤ) by omega,
      show pyTrunc (pyMod s 60) = (((pyTrunc (pyMod s 60)).toNat : ℕ) : ℤ) by omega,
      show pyTrunc ((s - (pyTrunc s : ℚ)) * 1000)
          = (((pyTrunc ((s - (pyTrunc s : ℚ)) * 1000)).toNat : ℕ) : ℤ) by omega]
  rw [pad2_eq _ (by omega), pad2_eq _ (by omega), pad2_eq _ (by omega), pad3_eq _ (by omega)]
  rfl

theorem parse_format_srt (s : ℚ) (h0 : 0 ≤ s) (hlt : s < 360000) :
    parse_timestamp_srt (format_timestamp_srt s) = (⌊1000 * s⌋ : ℚ) / 1000 := by
  obtain ⟨Hn, Mn, Sn, MSn, hH, hM, hS, hMS, hid, hfmt⟩ := format_srt_explicit s h0 hlt
  rw [parse_timestamp_srt, hfmt]
  rw [stripList_eq_self _
    (by intro c hc
        have : c = digitChar (Hn / 10) := by
          have h' : some (digitChar (Hn / 10)) = some c := hc
          exact (Option.some_inj.mp h').symm
        rw [this]
        exact digitChar_notSpace _ (by omega))
    (by intro c hc
        have : c = digitChar (MSn % 10) := by
          have h' : some (digitChar (MSn % 10)) = some c := hc
          exact (Option.some_inj.mp h').symm
        rw [this]
        exact digitChar_notSpace _ (by omega))]
  rw [tsShape12]
  rw [digitChar_isDigit _ (by omega : Hn / 10 < 10), digitChar_isDigit _ (by omega : Hn % 10 < 10),
      digitChar_isDigit _ (by omega : Mn / 10 < 10), digitChar_isDigit _ (by omega : Mn % 10 < 10),
      digitChar_isDigit _ (by omega : Sn / 10 < 10), digitChar_isDigit _ (by omega : Sn % 10 < 10),
      digitChar_isDigit _ (by omega : MSn / 100 < 10),
      digitChar_isDigit _ (by omega : MSn / 10 % 10 < 10),
      digitChar_isDigit _ (by omega : MSn % 10 < 10)]
  simp only [Bool.true_and, Bool.and_true]
  rw [if_pos (by rfl)]
  simp only [tsVal12]
  have e1 : d2v (digitChar (Hn / 10)) (digitChar (Hn % 10)) = Hn := by
    rw [d2v_digit _ (by omega) _ (by omega)]
    omega
  have e2 : d2v (digitChar (Mn / 10)) (digitChar (Mn % 10)) = Mn := by
    rw [d2v_digit _ (by omega) _ (by omega)]
    omega
  have e3 : d2v (digitChar (Sn / 10)) (digitChar (Sn % 10)) = Sn := by
    rw [d2v_digit _ (by omega) _ (by omega)]
    omega
  have e4 : d3v (digitChar (MSn / 100)) (digitChar (MSn / 10 % 10)) (digitChar (MSn % 10)) = MSn := by
    rw [d3v_digit _ (by omega) _ (by omega) _ (by omega)]
    omega
  rw [e1, e2, e3, e4]
  have hidQ : ((3600000 * Hn + 60000 * Mn + 1000 * Sn + MSn : ℕ) : ℚ) = ((⌊1000 * s⌋ : ℤ) : ℚ) := by
    exact_mod_cast hid
  push_cast at hidQ ⊢
  field_simp
  linarith

/-- C2 counterexample: at 100 hours the formatter widens the hour field to three digits, but the
parser's two-digit-hour pattern then fails to match and the best-effort fallback returns 0.0, so
the round trip loses the value entirely. -/
theorem claim2_counterexample_100_hours :
    format_timestamp_srt 360000 = "100:00:00,000".toList ∧
    parse_timestamp_srt (format_timestamp_srt 360000) = 0 ∧
    (0 : ℚ) ≠ 360000 :=
  ⟨by with_unfolding_all rfl, by with_unfolding_all rfl, by norm_num⟩

/-- C2 (amended): for 0 ≤ s < 100 hours (360000 seconds) the round trip returns s truncated to the
millisecond — exactly s whenever s is millisecond-aligned, and within one millisecond below s in
general.  At or above 100 hours the encoder widens the hour digits but the decoder's
`\d{2}:\d{2}:\d{2}[,.]\d{3}` pattern no longer matches and 0.0 is returned instead. -/
theorem claim2_roundtrip_amended (s : ℚ) (h0 : 0 ≤ s) (hlt : s < 360000) :
    parse_timestamp_srt (format_timestamp_srt s) = (⌊1000 * s⌋ : ℚ) / 1000 ∧
    s - 1 / 1000 < parse_timestamp_srt (format_timestamp_srt s) ∧
    parse_timestamp_srt (format_timestamp_srt s) ≤ s ∧
    (∀ n : ℤ, s = (n : ℚ) / 1000 → parse_timestamp_srt (format_timestamp_srt s) = s) := by
  have h := parse_format_srt s h0 hlt
  have hle := Int.floor_le (1000 * s)
  have hlt1 := Int.lt_floor_add_one (1000 * s)
  refine ⟨h, ?_, ?_, ?_⟩
  · rw [h, lt_div_iff (by norm_num : (0:ℚ) < 1000)]
    linarith
  · rw [h, div_le_iff (by norm_num : (0:ℚ) < 1000)]
    linarith
  · intro n hn
    rw [h, hn]
    have : ⌊1000 * ((n : ℚ) / 1000)⌋ = n := by
      rw [mul_div_cancel₀ _ (by norm_num : (1000:ℚ) ≠ 0)]
      exact Int.floor_intCast n
    rw [this]

/-- C2 witness: the round trip at 3.5 seconds, a millisecond-aligned value. -/
theorem claim2_witness :
    parse_timestamp_srt (format_timestamp_srt (7 / 2)) = (⌊1000 * (7 / 2 : ℚ)⌋ : ℚ) / 1000 ∧
    parse_timestamp_srt (format_timestamp_srt (7 / 2)) = (7 / 2 : ℚ) := by
  have h := claim2_roundtrip_amended (7 / 2) (by norm_num) (by norm_num)
  exact ⟨h.1, h.2.2.2 3500 (by norm_num)⟩

/-! ### C4 -/

theorem rfindSpace_some (txt : List Char) : ∀ stop j, rfindSpace txt stop = some j →
    j < stop ∧ txt.get? j = some ' ' ∧ ∀ k, j < k → k < stop → txt.get? k ≠ some ' ' := by
  intro stop
  induction stop with
  | zero => intro j h; cases h
  | succ n ih =>
    intro j h
    rw [rfindSpace] at h
    by_cases hc : txt.get? n = some ' '
    · rw [if_pos hc] at h
      obtain rfl : n = j := Option.some_inj.mp h
      exact ⟨Nat.lt_succ_self n, hc, fun k hk1 hk2 => by omega⟩
    · rw [if_neg hc] at h
      obtain ⟨hj1, hj2, hj3⟩ := ih j h
      refine ⟨by omega, hj2, ?_⟩
      intro k hk1 hk2
      rcases Nat.lt_or_ge k n with hk | hk
      · exact hj3 k hk1 hk
      · have hkn : k = n := by omega
        subst hkn
        exact hc

theorem rfindSpace_none (txt : List Char) : ∀ stop, rfindSpace txt stop = none →
    ∀ j, j < stop → txt.get? j ≠ some ' ' := by
  intro stop
  induction stop with
  | zero => intro _ j h; omega
  | succ n ih =>
    intro h j hj
    rw [rfindSpace] at h
    by_cases hc : txt.get? n = some ' '
    · rw [if_pos hc] at h; cases h
    · rw [if_neg hc] at h
      rcases Nat.lt_or_ge j n with hj' | hj'
      · exact ih h j hj'
      · have hjn : j = n := by omega
        subst hjn
        exact hc

/-- C4: splitting a valid segment at an interior time `t` lengthens the sequence by one, replaces
the target by two segments partitioning `[start, end)` exactly at `t`, with texts cut at a
character offset proportional to the elapsed-time ratio, moved back to the nearest preceding space
when one exists at a positive offset, both fragments trimmed; all other segments keep their
relative order. -/
theorem claim4_split_spec (segments : List Seg) (i : ℕ) (t : ℚ) (s : Seg)
    (hs : segments.get? i = some s) (h1 : s.start < t) (h2 : t < s.end_) :
    ∃ c : ℕ,
      (split_segment segments (i : ℤ) t).length = segments.length + 1 ∧
      (split_segment segments (i : ℤ) t).map segData =
        (segments.take i).map segData ++
          (s.start, t, stripList (s.text.take c), (none : Option (List Char))) ::
          (t, s.end_, stripList (s.text.drop c), (none : Option (List Char))) ::
          (segments.drop (i + 1)).map segData ∧
      ((∃ j, 0 < j ∧ j < ratioChar s.text s.start s.end_ t ∧ s.text.get? j = some ' ' ∧
          (∀ k, j < k → k < ratioChar s.text s.start s.end_ t → s.text.get? k ≠ some ' ') ∧ c = j) ∨
       ((∀ j, 0 < j → j < ratioChar s.text s.start s.end_ t → s.text.get? j ≠ some ' ') ∧
          c = ratioChar s.text s.start s.end_ t)) := by
  have hi : i < segments.length := (List.get?_eq_some.mp hs).1
  have happ := split_segment_applied segments i t s hs h1 h2
  refine ⟨splitCharOf s.text s.start s.end_ t, ?_, ?_, ?_⟩
  · rw [happ, renumber_length, List.length_append, List.length_cons, List.length_cons,
      List.length_take, List.length_drop]
    omega
  · rw [happ, renumber_map_segData, List.map_append, List.map_cons, List.map_cons]
    rfl
  · rcases hr : rfindSpace s.text (ratioChar s.text s.start s.end_ t) with _ | j
    · right
      refine ⟨?_, ?_⟩
      · intro j hj0 hjlt
        exact rfindSpace_none s.text _ hr j hjlt
      · unfold splitCharOf
        rw [hr]
    · obtain ⟨hjlt, hjsp, hjmax⟩ := rfindSpace_some s.text _ j hr
      by_cases hj0 : 0 < j
      · left
        refine ⟨j, hj0, hjlt, hjsp, hjmax, ?_⟩
        unfold splitCharOf
        rw [hr]
        simp only [if_pos hj0]
      · right
        refine ⟨?_, ?_⟩
        · intro k hk0 hklt
          exact hjmax k (by omega) hklt
        · unfold splitCharOf
          rw [hr]
          simp only [if_neg hj0]

/-- C4 witness: the spec's concrete scenario, splitting a ten-second segment at its midpoint. -/
theorem claim4_witness :
    ∃ c : ℕ,
      (split_segment [wSegFox] ((0 : ℕ) : ℤ) 5).length = [wSegFox].length + 1 ∧
      (split_segment [wSegFox] ((0 : ℕ) : ℤ) 5).map segData =
        ([wSegFox].take 0).map segData ++
          (wSegFox.start, 5, stripList (wSegFox.text.take c), (none : Option (List Char))) ::
          ((5 : ℚ), wSegFox.end_, stripList (wSegFox.text.drop c), (none : Option (List Char))) ::
          ([wSegFox].drop 1).map segData ∧
      ((∃ j, 0 < j ∧ j < ratioChar wSegFox.text wSegFox.start wSegFox.end_ 5 ∧
          wSegFox.text.get? j = some ' ' ∧
          (∀ k, j < k → k < ratioChar wSegFox.text wSegFox.start wSegFox.end_ 5 →
            wSegFox.text.get? k ≠ some ' ') ∧ c = j) ∨
       ((∀ j, 0 < j → j < ratioChar wSegFox.text wSegFox.start wSegFox.end_ 5 →
          wSegFox.text.get? j ≠ some ' ') ∧
          c = ratioChar wSegFox.text wSegFox.start wSegFox.end_ 5)) :=
  claim4_split_spec [wSegFox] 0 5 wSegFox
    (by with_unfolding_all rfl) (by with_unfolding_all decide) (by with_unfolding_all decide)

/-! ### C8 -/

theorem isDigit_ne_nl (c : Char) (h : c.isDigit = true) : (c == '\n') = false := by
  cases hb : c == '\n' with
  | false => rfl
  | true =>
    rw [beq_iff_eq] at hb
    subst hb
    exact absurd h (by decide)

theorem isDigit_not_space (c : Char) (h : c.isDigit = true) : isPySpace c = false := by
  cases hb : isPySpace c with
  | false => rfl
  | true =>
    exfalso
    rw [isPySpace] at hb
    simp only [Bool.or_eq_true, beq_iff_eq] at hb
    rcases hb with ((((hb | hb) | hb) | hb) | hb) | hb <;> (subst hb; exact absurd h (by decide))

theorem tsChar_ne_nl (c : Char) (h : isTsChar c = true) : (c == '\n') = false := by
  rw [isTsChar] at h
  simp only [Bool.or_eq_true, beq_iff_eq] at h
  rcases h with (h | h) | h
  · exact isDigit_ne_nl c h
  · subst h; rfl
  · subst h; rfl

theorem tsChar_not_space (c : Char) (h : isTsChar c = true) : isPySpace c = false := by
  rw [isTsChar] at h
  simp only [Bool.or_eq_true, beq_iff_eq] at h
  rcases h with (h | h) | h
  · exact isDigit_not_space c h
  · subst h; rfl
  · subst h; rfl

theorem not_space_ne_nl (c : Char) (h : isPySpace c = false) : (c == '\n') = false := by
  cases hb : c == '\n' with
  | false => rfl
  | true =>
    rw [beq_iff_eq] at hb
    subst hb
    exact absurd h (by decide)

theorem natToCharsFuel_head : ∀ fuel n, n < fuel →
    ∃ d t, natToCharsFuel fuel n = digitChar d :: t ∧ d < 10 := by
  intro fuel
  induction fuel with
  | zero => intro n h; omega
  | succ f ih =>
    intro n h
    rw [natToCharsFuel]
    by_cases h10 : n < 10
    · rw [if_pos h10]
      exact ⟨n, [], rfl, h10⟩
    · rw [if_neg h10]
      obtain ⟨d, t, heq, hd⟩ := ih (n / 10) (by omega)
      exact ⟨d, t ++ [digitChar (n % 10)], by rw [heq]; rfl, hd⟩

theorem natToCharsFuel_all_digit : ∀ fuel n, (natToCharsFuel fuel n).all Char.isDigit = true := by
  intro fuel
  induction fuel with
  | zero => intro n; rfl
  | succ f ih =>
    intro n
    rw [natToCharsFuel]
    by_cases h10 : n < 10
    · rw [if_pos h10]
      simp only [List.all_cons, List.all_nil, Bool.and_true]
      exact digitChar_isDigit n h10
    · rw [if_neg h10]
      rw [List.all_append]
      rw [ih (n / 10)]
      simp only [List.all_cons, List.all_nil, Bool.and_true, Bool.true_and]
      exact digitChar_isDigit (n % 10) (by omega)

theorem digitsVal_append_digit (xs : List Char) (c : Char) :
    digitsVal (xs ++ [c]) = 10 * digitsVal xs + (c.toNat - 48) := by
  rw [digitsVal, digitsVal, List.foldl_append]
  rfl

theorem digitChar_toNat : ∀ d : ℕ, d < 10 → (digitChar d).toNat = 48 + d := by decide

theorem digitsVal_natToCharsFuel : ∀ fuel n, n < fuel → digitsVal (natToCharsFuel fuel n) = n := by
  intro fuel
  induction fuel with
  | zero => intro n h; omega
  | succ f ih =>
    intro n h
    rw [natToCharsFuel]
    by_cases h10 : n < 10
    · rw [if_pos h10]
      show digitsVal [digitChar n] = n
      rw [show ([digitChar n] : List Char) = [] ++ [digitChar n] from rfl, digitsVal_append_digit]
      rw [digitChar_toNat n h10]
      show 10 * 0 + (48 + n - 48) = n
      omega
    · rw [if_neg h10]
      rw [digitsVal_append_digit, ih (n / 10) (by omega), digitChar_toNat (n % 10) (by omega)]
      omega

theorem head?_mem_char (l : List Char) (c : Char) (h : l.head? = some c) : c ∈ l := by
  cases l with
  | nil => cases h
  | cons a t =>
    rw [List.head?_cons] at h
    cases h
    exact List.mem_cons_self ..

theorem dropWhile_id_head (p : Char → Bool) (l : List Char) (c : Char)
    (h : l.dropWhile p = l) (hc : l.head? = some c) : p c = false := by
  cases l with
  | nil => cases hc
  | cons a t =>
    rw [List.head?_cons] at hc
    have hac : a = c := Option.some_inj.mp hc
    subst hac
    rw [List.dropWhile_cons] at h
    by_cases hp : p a
    · rw [if_pos hp] at h
      have hle := (List.dropWhile_sublist (l := t) p).length_le
      rw [h] at hle
      simp at hle
    · exact eq_false_of_ne_true hp

theorem stripInv_dropWhile (l : List Char) (hst : stripList l = l) :
    l.dropWhile isPySpace = l ∧ l.reverse.dropWhile isPySpace = l.reverse := by
  have hfull : (stripList l).length = l.length := by rw [hst]
  rw [stripList] at hfull
  simp only [List.length_reverse] at hfull
  have hlen1 : (l.dropWhile isPySpace).length ≤ l.length :=
    (List.dropWhile_sublist (l := l) isPySpace).length_le
  have hlen2 : ((l.dropWhile isPySpace).reverse.dropWhile isPySpace).length ≤
      (l.dropWhile isPySpace).length := by
    have h := (List.dropWhile_sublist (l := (l.dropWhile isPySpace).reverse) isPySpace).length_le
    simpa using h
  have e1 : (l.dropWhile isPySpace).length = l.length := by omega
  have h1 : l.dropWhile isPySpace = l := (List.dropWhile_sublist isPySpace).eq_of_length e1
  refine ⟨h1, ?_⟩
  have h2 : ((l.reverse.dropWhile isPySpace)).reverse = l := by
    rw [stripList, h1] at hst
    exact hst
  calc l.reverse.dropWhile isPySpace
      = (((l.reverse.dropWhile isPySpace)).reverse).reverse := (List.reverse_reverse _).symm
    _ = l.reverse := by rw [h2]

theorem stripInv_head (l : List Char) (hst : stripList l = l) :
    ∀ c, l.head? = some c → isPySpace c = false := by
  intro c hc
  exact dropWhile_id_head isPySpace l c (stripInv_dropWhile l hst).1 hc

theorem stripInv_last (l : List Char) (hst : stripList l = l) :
    ∀ c, l.getLast? = some c → isPySpace c = false := by
  intro c hc
  refine dropWhile_id_head isPySpace l.reverse c (stripInv_dropWhile l hst).2 ?_
  rw [List.head?_reverse]
  exact hc

theorem stripList_of_all_digit (l : List Char) (h : l.all Char.isDigit = true) :
    stripList l = l := by
  apply stripList_eq_self
  · intro c hc
    exact isDigit_not_space c (List.all_eq_true.mp h c (head?_mem_char l c hc))
  · intro c hc
    refine isDigit_not_space c (List.all_eq_true.mp h c ?_)
    exact List.mem_reverse.mp (head?_mem_char l.reverse c hc)

theorem digitChar_ne_minus : ∀ d : ℕ, d < 10 → ¬(digitChar d = '-') := by decide

theorem digitChar_ne_plus : ∀ d : ℕ, d < 10 → ¬(digitChar d = '+') := by decide

theorem pyInt_natToChars (k : ℕ) : pyInt (natToChars k) = some (k : ℤ) := by
  obtain ⟨d, t, heq, hd⟩ := natToCharsFuel_head (k + 1) k (Nat.lt_succ_self k)
  have hall : (natToChars k).all Char.isDigit = true := natToCharsFuel_all_digit (k + 1) k
  have hstrip : stripList (natToChars k) = natToChars k := stripList_of_all_digit _ hall
  rw [pyInt, hstrip]
  rw [show natToChars k = digitChar d :: t from heq]
  have h1 : ¬(digitChar d = '-') := digitChar_ne_minus d hd
  have h2 : ¬(digitChar d = '+') := digitChar_ne_plus d hd
  have h3 : (digitChar d :: t).all Char.isDigit = true := by
    rw [← heq]
    exact hall
  simp only [h1, h2, h3, if_true, if_false, ite_true, ite_false]
  have hval : digitsVal (digitChar d :: t) = k := by
    rw [← heq]
    exact digitsVal_natToCharsFuel (k + 1) k (Nat.lt_succ_self k)
  rw [hval]

theorem splitLinesGo_ne_nil : ∀ (l : List Char) acc, splitLinesGo l acc ≠ [] := by
  intro l
  induction l with
  | nil => intro acc; simp [splitLinesGo]
  | cons c rest ih =>
    intro acc
    rw [splitLinesGo]
    by_cases hc : c = '\n'
    · rw [if_pos hc]
      exact List.cons_ne_nil _ _
    · rw [if_neg hc]
      exact ih _

theorem joinNl_cons_ne (x : List Char) (L : List (List Char)) (h : L ≠ []) :
    joinNl (x :: L) = x ++ '\n' :: joinNl L := by
  cases L with
  | nil => exact absurd rfl h
  | cons y ys => rfl

theorem joinNl_splitLinesGo : ∀ (l : List Char) acc,
    joinNl (splitLinesGo l acc) = acc.reverse ++ l := by
  intro l
  induction l with
  | nil =>
    intro acc
    show joinNl [acc.reverse] = acc.reverse ++ []
    rw [List.append_nil]
    rfl
  | cons c rest ih =>
    intro acc
    rw [splitLinesGo]
    by_cases hc : c = '\n'
    · subst hc
      rw [if_pos rfl]
      rw [joinNl_cons_ne _ _ (splitLinesGo_ne_nil rest [])]
      rw [ih []]
      simp only [List.reverse_nil, List.nil_append]
    · rw [if_neg hc]
      rw [ih (c :: acc)]
      rw [List.reverse_cons, List.append_assoc]
      rfl

theorem joinNl_splitLines (l : List Char) : joinNl (splitLines l) = l := by
  rw [splitLines, joinNl_splitLinesGo]
  rfl

theorem splitLinesGo_append_nl (y : List Char) :
    ∀ (x : List Char), noNl x = true → ∀ acc,
      splitLinesGo (x ++ '\n' :: y) acc = (acc.reverse ++ x) :: splitLinesGo y [] := by
  intro x
  induction x with
  | nil =>
    intro _ acc
    rw [List.nil_append, splitLinesGo, if_pos rfl, List.append_nil]
  | cons c t ih =>
    intro hx acc
    rw [noNl, List.all_cons, Bool.and_eq_true] at hx
    obtain ⟨hc, ht⟩ := hx
    have hcne : ¬(c = '\n') := by simpa using hc
    rw [List.cons_append, splitLinesGo, if_neg hcne]
    rw [ih (by rw [noNl]; exact ht) (c :: acc)]
    rw [List.reverse_cons, List.append_assoc]
    rfl

theorem splitLines_append_nl (x y : List Char) (hx : noNl x = true) :
    splitLines (x ++ '\n' :: y) = x :: splitLines y := by
  rw [splitLines, splitLinesGo_append_nl y x hx []]
  rfl

theorem noBlankRun_tail (c : Char) (l : List Char) (h : noBlankRun (c :: l) = true) :
    noBlankRun l = true := by
  cases l with
  | nil => rfl
  | cons c2 t =>
    rw [noBlankRun, Bool.and_eq_true] at h
    exact h.2

theorem noBlankRun_pair (c c2 : Char) (t : List Char)
    (h : noBlankRun (c :: c2 :: t) = true) : ¬(c = '\n' ∧ c2 = '\n') := by
  rw [noBlankRun, Bool.and_eq_true] at h
  have h1 := h.1
  intro hcc
  obtain ⟨rfl, rfl⟩ := hcc
  simp at h1

theorem noBlankRun_of_noNl (l : List Char) (h : noNl l = true) : noBlankRun l = true := by
  induction l with
  | nil => rfl
  | cons c t ih =>
    rw [noNl, List.all_cons, Bool.and_eq_true] at h
    obtain ⟨hc, ht⟩ := h
    cases t with
    | nil => rfl
    | cons c2 t2 =>
      rw [noBlankRun, Bool.and_eq_true]
      constructor
      · have hcf : (c == '\n') = false := by simpa using hc
        simp [hcf]
      · exact ih (by rw [noNl]; exact ht)

theorem noBlankRun_append : ∀ (x y : List Char),
    noBlankRun x = true → noBlankRun y = true →
    (∀ cx cy, x.getLast? = some cx → y.head? = some cy → ¬(cx = '\n' ∧ cy = '\n')) →
    noBlankRun (x ++ y) = true := by
  intro x
  induction x with
  | nil =>
    intro y _ hy _
    simpa using hy
  | cons c t ih =>
    intro y hx hy hxy
    cases t with
    | nil =>
      cases y with
      | nil => rfl
      | cons cy ty =>
        show noBlankRun (c :: cy :: ty) = true
        rw [noBlankRun, Bool.and_eq_true]
        refine ⟨?_, hy⟩
        have hne := hxy c cy (by simp) rfl
        by_cases h1 : c = '\n'
        · by_cases h2 : cy = '\n'
          · exact absurd ⟨h1, h2⟩ hne
          · have h2f : (cy == '\n') = false := by simpa using h2
            simp [h2f]
        · have h1f : (c == '\n') = false := by simpa using h1
          simp [h1f]
    | cons c2 t2 =>
      show noBlankRun (c :: c2 :: (t2 ++ y)) = true
      rw [noBlankRun, Bool.and_eq_true]
      constructor
      · rw [noBlankRun, Bool.and_eq_true] at hx
        exact hx.1
      · show noBlankRun ((c2 :: t2) ++ y) = true
        refine ih y (noBlankRun_tail c _ hx) hy ?_
        intro cx cy hcx hcy
        refine hxy cx cy ?_ hcy
        rw [List.getLast?_cons_cons]
        exact hcx

theorem strip_append_two_nl (x : List Char) (hne : x ≠ [])
    (hh : ∀ c, x.head? = some c → isPySpace c = false)
    (hl : ∀ c, x.getLast? = some c → isPySpace c = false) :
    stripList (x ++ ['\n', '\n']) = x := by
  obtain ⟨c, t, rfl⟩ : ∃ c t, x = c :: t := by
    cases x with
    | nil => exact absurd rfl hne
    | cons c t => exact ⟨c, t, rfl⟩
  rw [stripList]
  have h1 : ((c :: t) ++ ['\n', '\n']).dropWhile isPySpace = (c :: t) ++ ['\n', '\n'] := by
    rw [List.cons_append, List.dropWhile_cons, hh c rfl]
    simp
  rw [h1, List.reverse_append]
  show (('\n' :: '\n' :: (c :: t).reverse).dropWhile isPySpace).reverse = c :: t
  rw [List.dropWhile_cons, if_pos (show isPySpace '\n' = true from rfl)]
  rw [List.dropWhile_cons, if_pos (show isPySpace '\n' = true from rfl)]
  cases hrev : (c :: t).reverse with
  | nil => simp at hrev
  | cons c' t' =>
    have hc' : (c :: t).getLast? = some c' := by
      rw [← List.head?_reverse, hrev]
      rfl
    rw [List.dropWhile_cons, if_neg (by rw [hl c' hc']; simp)]
    rw [← hrev, List.reverse_reverse]

theorem sbg_cons (fuel : ℕ) (c : Char) (rest : List Char) (acc : List Char) :
    splitBlocksGo (fuel + 1) (c :: rest) acc =
      if c = '\n' then
        match rest with
        | c2 :: rest2 =>
          if c2 = '\n' then
            acc.reverse :: splitBlocksGo fuel (rest2.dropWhile (fun x => x = '\n')) []
          else splitBlocksGo fuel rest (c :: acc)
        | [] => splitBlocksGo fuel [] (c :: acc)
      else splitBlocksGo fuel rest (c :: acc) := rfl

theorem splitBlocksGo_fuel : ∀ f1 f2 (l acc : List Char), l.length < f1 → l.length < f2 →
    splitBlocksGo f1 l acc = splitBlocksGo f2 l acc := by
  intro f1
  induction f1 with
  | zero =>
    intro f2 l acc h1 _
    omega
  | succ f ih =>
    intro f2 l acc h1 h2
    cases l with
    | nil =>
      cases f2 with
      | zero => omega
      | succ g => rfl
    | cons c rest =>
      cases f2 with
      | zero => simp at h2
      | succ g =>
        rw [sbg_cons, sbg_cons]
        simp only [List.length_cons] at h1 h2
        by_cases hc : c = '\n'
        · rw [if_pos hc, if_pos hc]
          cases rest with
          | nil =>
            show splitBlocksGo f [] (c :: acc) = splitBlocksGo g [] (c :: acc)
            exact ih g [] (c :: acc) (by simpa using h1) (by simpa using h2)
          | cons c2 rest2 =>
            show (if c2 = '\n' then
                    acc.reverse :: splitBlocksGo f (rest2.dropWhile (fun x => x = '\n')) []
                  else splitBlocksGo f (c2 :: rest2) (c :: acc)) =
                 (if c2 = '\n' then
                    acc.reverse :: splitBlocksGo g (rest2.dropWhile (fun x => x = '\n')) []
                  else splitBlocksGo g (c2 :: rest2) (c :: acc))
            have hdw : (rest2.dropWhile (fun x => x = '\n')).length ≤ rest2.length :=
              (List.dropWhile_sublist _).length_le
            simp only [List.length_cons] at h1 h2
            by_cases hc2 : c2 = '\n'
            · rw [if_pos hc2, if_pos hc2]
              rw [ih g (rest2.dropWhile (fun x => x = '\n')) [] (by omega) (by omega)]
            · rw [if_neg hc2, if_neg hc2]
              exact ih g (c2 :: rest2) (c :: acc) (by simp; omega) (by simp; omega)
        · rw [if_neg hc, if_neg hc]
          exact ih g rest (c :: acc) (by omega) (by omega)

theorem splitBlocksGo_noSplit : ∀ (blk : List Char) fuel acc, noBlankRun blk = true →
    blk.length < fuel → splitBlocksGo fuel blk acc = [acc.reverse ++ blk] := by
  intro blk
  induction blk with
  | nil =>
    intro fuel acc _ hf
    cases fuel with
    | zero => omega
    | succ f =>
      show [acc.reverse] = [acc.reverse ++ []]
      rw [List.append_nil]
  | cons c t ih =>
    intro fuel acc hnb hf
    cases fuel with
    | zero => omega
    | succ f =>
      simp only [List.length_cons] at hf
      rw [sbg_cons]
      by_cases hc : c = '\n'
      · rw [if_pos hc]
        cases t with
        | nil =>
          show splitBlocksGo f [] (c :: acc) = [acc.reverse ++ [c]]
          rw [ih f (c :: acc) rfl (by simp; omega)]
          simp
        | cons c2 t2 =>
          have hc2 : ¬(c2 = '\n') := fun h2 => noBlankRun_pair c c2 t2 hnb ⟨hc, h2⟩
          show (if c2 = '\n' then
                  acc.reverse :: splitBlocksGo f (t2.dropWhile (fun x => x = '\n')) []
                else splitBlocksGo f (c2 :: t2) (c :: acc)) = [acc.reverse ++ c :: c2 :: t2]
          rw [if_neg hc2]
          rw [ih f (c :: acc) (noBlankRun_tail c _ hnb) (by simp at hf ⊢; omega)]
          simp
      · rw [if_neg hc]
        rw [ih f (c :: acc) (noBlankRun_tail c _ hnb) (by omega)]
        simp

theorem splitBlocksGo_through : ∀ (blk rest : List Char) fuel acc,
    noBlankRun blk = true → blk.getLast? ≠ some '\n' →
    blk.length + 2 + rest.length < fuel →
    splitBlocksGo fuel (blk ++ '\n' :: '\n' :: rest) acc =
      (acc.reverse ++ blk) ::
        splitBlocksGo (rest.length + 1) (rest.dropWhile (fun x => x = '\n')) [] := by
  intro blk
  induction blk with
  | nil =>
    intro rest fuel acc _ _ hf
    cases fuel with
    | zero => omega
    | succ f =>
      rw [List.nil_append, sbg_cons, if_pos rfl]
      show (if ('\n' : Char) = '\n' then
              acc.reverse :: splitBlocksGo f (rest.dropWhile (fun x => x = '\n')) []
            else splitBlocksGo f ('\n' :: rest) ('\n' :: acc)) =
           (acc.reverse ++ []) ::
             splitBlocksGo (rest.length + 1) (rest.dropWhile (fun x => x = '\n')) []
      rw [if_pos rfl, List.append_nil]
      have hdw : (rest.dropWhile (fun x => x = '\n')).length ≤ rest.length :=
        (List.dropWhile_sublist _).length_le
      rw [splitBlocksGo_fuel f (rest.length + 1) _ [] (by simp at hf; omega) (by omega)]
  | cons c t ih =>
    intro rest fuel acc hnb hlast hf
    cases fuel with
    | zero => omega
    | succ f =>
      simp only [List.length_cons] at hf
      rw [List.cons_append, sbg_cons]
      by_cases hc : c = '\n'
      · rw [if_pos hc]
        cases t with
        | nil =>
          exfalso
          apply hlast
          subst hc
          rfl
        | cons c2 t2 =>
          have hc2 : ¬(c2 = '\n') := fun h2 => noBlankRun_pair c c2 t2 hnb ⟨hc, h2⟩
          rw [List.cons_append]
          show (if c2 = '\n' then
                  acc.reverse :: splitBlocksGo f ((t2 ++ '\n' :: '\n' :: rest).dropWhile (fun x => x = '\n')) []
                else splitBlocksGo f (c2 :: (t2 ++ '\n' :: '\n' :: rest)) (c :: acc)) =
               (acc.reverse ++ c :: c2 :: t2) ::
                 splitBlocksGo (rest.length + 1) (rest.dropWhile (fun x => x = '\n')) []
          rw [if_neg hc2]
          rw [← List.cons_append]
          rw [ih rest f (c :: acc) (noBlankRun_tail c _ hnb)
            (by rw [← List.getLast?_cons_cons (a := c)]; exact hlast) (by simp at hf ⊢; omega)]
          simp
      · rw [if_neg hc]
        cases t with
        | nil =>
          have h := ih rest f (c :: acc) rfl (by simp) (by simp at hf ⊢; omega)
          rw [List.nil_append] at h
          rw [List.nil_append, h]
          simp
        | cons c2 t2 =>
          rw [ih rest f (c :: acc) (noBlankRun_tail c _ hnb)
            (by rw [← List.getLast?_cons_cons (a := c)]; exact hlast) (by simp at hf ⊢; omega)]
          simp

theorem all_imp (p q : Char → Bool) (h : ∀ c, p c = true → q c = true) :
    ∀ l : List Char, l.all p = true → l.all q = true := by
  intro l hl
  rw [List.all_eq_true] at hl ⊢
  exact fun x hx => h x (hl x hx)

theorem tsChar_digitChar : ∀ d : ℕ, d < 10 → isTsChar (digitChar d) = true := by decide

theorem format_all_tsChar (s : ℚ) (h0 : 0 ≤ s) (hlt : s < 360000) :
    (format_timestamp_srt s).all isTsChar = true := by
  obtain ⟨Hn, Mn, Sn, MSn, hH, hM, hS, hMS, _, hfmt⟩ := format_srt_explicit s h0 hlt
  rw [hfmt]
  simp only [List.all_cons, List.all_nil, Bool.and_true, Bool.and_eq_true]
  exact ⟨tsChar_digitChar _ (by omega), tsChar_digitChar _ (by omega), rfl,
         tsChar_digitChar _ (by omega), tsChar_digitChar _ (by omega), rfl,
         tsChar_digitChar _ (by omega), tsChar_digitChar _ (by omega), rfl,
         tsChar_digitChar _ (by omega), tsChar_digitChar _ (by omega), tsChar_digitChar _ (by omega)⟩

theorem format_noNl (s : ℚ) (h0 : 0 ≤ s) (hlt : s < 360000) :
    noNl (format_timestamp_srt s) = true := by
  rw [noNl]
  exact all_imp isTsChar _ (fun c hc => by simpa using tsChar_ne_nl c hc) _
    (format_all_tsChar s h0 hlt)

theorem natToChars_noNl (k : ℕ) : noNl (natToChars k) = true := by
  rw [noNl]
  exact all_imp Char.isDigit _ (fun c hc => by simpa using isDigit_ne_nl c hc) _
    (natToCharsFuel_all_digit (k + 1) k)

theorem tsLine_noNl (s : Seg) (h1 : 0 ≤ s.start) (h2 : s.start < 360000)
    (h3 : 0 ≤ s.end_) (h4 : s.end_ < 360000) : noNl (tsLine s) = true := by
  rw [tsLine, noNl, List.all_append, Bool.and_eq_true]
  constructor
  · have h := format_noNl s.start h1 h2
    rw [noNl] at h
    exact h
  · simp only [List.all_cons, Bool.and_eq_true]
    refine ⟨rfl, rfl, rfl, rfl, rfl, ?_⟩
    have h := format_noNl s.end_ h3 h4
    rw [noNl] at h
    exact h

theorem getLast?_mem_char (l : List Char) (c : Char) (h : l.getLast? = some c) : c ∈ l := by
  have hm := head?_mem_char l.reverse c (by rw [List.head?_reverse]; exact h)
  exact List.mem_reverse.mp hm

theorem noBlankRun_nl_cons (z : List Char) (hz : noBlankRun z = true)
    (hhead : ∀ c, z.head? = some c → ¬(c = '\n')) : noBlankRun ('\n' :: z) = true := by
  cases z with
  | nil => rfl
  | cons c t =>
    rw [noBlankRun, Bool.and_eq_true]
    refine ⟨?_, hz⟩
    have hc : ¬(c = '\n') := hhead c rfl
    have hcf : (c == '\n') = false := by simpa using hc
    simp [hcf]

theorem blockOf_head (k : ℕ) (s : Seg) :
    ∃ d, d < 10 ∧ (blockOf k s).head? = some (digitChar d) := by
  obtain ⟨d, t, heq, hd⟩ := natToCharsFuel_head (k + 1) k (Nat.lt_succ_self k)
  refine ⟨d, hd, ?_⟩
  rw [blockOf, List.head?_append_of_ne_nil]
  · rw [show natToChars k = digitChar d :: t from heq]
    rfl
  · rw [show natToChars k = digitChar d :: t from heq]
    exact List.cons_ne_nil _ _

theorem noNl_mem_ne_nl (l : List Char) (h : noNl l = true) (c : Char) (hc : c ∈ l) :
    ¬(c = '\n') := by
  rw [noNl] at h
  have hb := List.all_eq_true.mp h c hc
  simpa using hb

theorem tsLine_ne_nil (s : Seg) : tsLine s ≠ [] := by
  rw [tsLine]
  simp

theorem blockOf_last (k : ℕ) (s : Seg) (hst : stripList s.text = s.text) (hne : s.text ≠ []) :
    ∃ c, (blockOf k s).getLast? = some c ∧ isPySpace c = false := by
  have h3 : s.text.getLast? = some (s.text.getLast hne) := List.getLast?_eq_getLast s.text hne
  refine ⟨s.text.getLast hne, ?_, stripInv_last _ hst _ h3⟩
  rw [blockOf, hst]
  rw [List.getLast?_append_of_ne_nil _ (List.cons_ne_nil _ _)]
  rw [show ('\n' :: s.text) = ['\n'] ++ s.text from rfl]
  rw [List.getLast?_append_of_ne_nil _ hne]
  exact h3

theorem blockOf_noBlankRun (k : ℕ) (s : Seg) (hg : goodSeg s) :
    noBlankRun (blockOf k s) = true := by
  obtain ⟨hs0, hs1, he0, he1, _, hst, hne, hnb⟩ := hg
  rw [blockOf, hst]
  have hts_noNl : noNl (tsLine s) = true := tsLine_noNl s hs0 hs1 he0 he1
  have htxt_head : ∀ c, s.text.head? = some c → ¬(c = '\n') := by
    intro c hc hceq
    have hsp := stripInv_head _ hst c hc
    rw [hceq] at hsp
    exact absurd hsp (by decide)
  have hleft : noBlankRun (natToChars k ++ ('\n' :: tsLine s)) = true := by
    refine noBlankRun_append _ _ (noBlankRun_of_noNl _ (natToChars_noNl k)) ?_ ?_
    · refine noBlankRun_nl_cons _ (noBlankRun_of_noNl _ hts_noNl) ?_
      intro c hc
      exact noNl_mem_ne_nl _ hts_noNl c (head?_mem_char _ _ hc)
    · intro cx cy hcx hcy hand
      have hmem := getLast?_mem_char _ _ hcx
      have hdg := List.all_eq_true.mp (natToCharsFuel_all_digit (k + 1) k) cx hmem
      have hxn := isDigit_ne_nl cx hdg
      rw [hand.1] at hxn
      simp at hxn
  refine noBlankRun_append _ _ hleft ?_ ?_
  · refine noBlankRun_nl_cons _ hnb htxt_head
  · intro cx cy hcx hcy hand
    rw [List.getLast?_append_of_ne_nil _ (List.cons_ne_nil _ _)] at hcx
    rw [show ('\n' :: tsLine s) = ['\n'] ++ tsLine s from rfl] at hcx
    rw [List.getLast?_append_of_ne_nil _ (tsLine_ne_nil s)] at hcx
    exact noNl_mem_ne_nl _ hts_noNl cx (getLast?_mem_char _ _ hcx) hand.1

theorem tsShape12_format (s : ℚ) (h0 : 0 ≤ s) (hlt : s < 360000) (r : List Char) :
    tsShape12 (format_timestamp_srt s ++ r) = some (format_timestamp_srt s, r) := by
  obtain ⟨Hn, Mn, Sn, MSn, hH, hM, hS, hMS, _, hfmt⟩ := format_srt_explicit s h0 hlt
  rw [hfmt]
  simp only [List.cons_append, List.nil_append]
  rw [tsShape12]
  rw [digitChar_isDigit _ (by omega : Hn / 10 < 10), digitChar_isDigit _ (by omega : Hn % 10 < 10),
      digitChar_isDigit _ (by omega : Mn / 10 < 10), digitChar_isDigit _ (by omega : Mn % 10 < 10),
      digitChar_isDigit _ (by omega : Sn / 10 < 10), digitChar_isDigit _ (by omega : Sn % 10 < 10),
      digitChar_isDigit _ (by omega : MSn / 100 < 10),
      digitChar_isDigit _ (by omega : MSn / 10 % 10 < 10),
      digitChar_isDigit _ (by omega : MSn % 10 < 10)]
  simp only [Bool.true_and, Bool.and_true]
  rw [if_pos (by rfl)]

theorem matchTiming_format (a b : ℚ) (ha0 : 0 ≤ a) (ha1 : a < 360000)
    (hb0 : 0 ≤ b) (hb1 : b < 360000) :
    matchTimingSrt (format_timestamp_srt a ++
        ' ' :: '-' :: '-' :: '>' :: ' ' :: format_timestamp_srt b) =
      some (format_timestamp_srt a, format_timestamp_srt b) := by
  have ha12 := tsShape12_format a ha0 ha1 (' ' :: '-' :: '-' :: '>' :: ' ' :: format_timestamp_srt b)
  have hb12 : tsShape12 (format_timestamp_srt b) = some (format_timestamp_srt b, []) := by
    have h := tsShape12_format b hb0 hb1 []
    rw [List.append_nil] at h
    exact h
  rw [matchTimingSrt, ha12]
  simp only []
  have hdw1 : (' ' :: '-' :: '-' :: '>' :: ' ' :: format_timestamp_srt b).dropWhile isPySpace
      = '-' :: '-' :: '>' :: ' ' :: format_timestamp_srt b := by
    rw [List.dropWhile_cons, if_pos (show isPySpace ' ' = true from rfl)]
    rw [List.dropWhile_cons, if_neg (show ¬(isPySpace '-' = true) from by decide)]
  rw [hdw1]
  simp only []
  rw [if_pos (by rfl)]
  have hdw2 : (' ' :: format_timestamp_srt b).dropWhile isPySpace = format_timestamp_srt b := by
    rw [List.dropWhile_cons, if_pos (show isPySpace ' ' = true from rfl)]
    obtain ⟨Hn, Mn, Sn, MSn, hH, _, _, _, _, hfmt⟩ := format_srt_explicit b hb0 hb1
    rw [hfmt, List.dropWhile_cons, if_neg (by
      rw [digitChar_notSpace _ (by omega : Hn / 10 < 10)]
      simp)]
  rw [hdw2, hb12]

theorem strip_tsLine (s : Seg) (hs0 : 0 ≤ s.start) (hs1 : s.start < 360000)
    (he0 : 0 ≤ s.end_) (he1 : s.end_ < 360000) : stripList (tsLine s) = tsLine s := by
  obtain ⟨Hn, Mn, Sn, MSn, hH, _, _, _, _, hfmtS⟩ := format_srt_explicit s.start hs0 hs1
  obtain ⟨Hn', Mn', Sn', MSn', _, _, _, hMS', _, hfmtE⟩ := format_srt_explicit s.end_ he0 he1
  apply stripList_eq_self
  · intro c hc
    rw [tsLine, hfmtS] at hc
    have h' : some (digitChar (Hn / 10)) = some c := hc
    rw [← Option.some_inj.mp h']
    exact digitChar_notSpace _ (by omega)
  · intro c hc
    rw [tsLine, hfmtS, hfmtE] at hc
    have h' : some (digitChar (MSn' % 10)) = some c := hc
    rw [← Option.some_inj.mp h']
    exact digitChar_notSpace _ (by omega)

theorem parseBlock_blockOf (k : ℕ) (s : Seg) (hg : goodSeg s) :
    parseBlockSrt (blockOf k s) = some
      { index := some ((k : ℤ)), start := (⌊1000 * s.start⌋ : ℚ) / 1000,
        end_ := (⌊1000 * s.end_⌋ : ℚ) / 1000, text := s.text, original := none } := by
  obtain ⟨hs0, hs1, he0, he1, _, hst, hne, hnb⟩ := hg
  obtain ⟨d, hd, hh⟩ := blockOf_head k s
  obtain ⟨cl, hcl, hclns⟩ := blockOf_last k s hst hne
  have hstripB : stripList (blockOf k s) = blockOf k s := by
    apply stripList_eq_self
    · intro c hc
      rw [hh] at hc
      rw [← Option.some_inj.mp hc]
      exact digitChar_notSpace _ hd
    · intro c hc
      rw [List.head?_reverse, hcl] at hc
      rw [← Option.some_inj.mp hc]
      exact hclns
  rw [parseBlockSrt, hstripB]
  have hsl : splitLines (blockOf k s) = natToChars k :: tsLine s :: splitLines s.text := by
    rw [blockOf, hst, List.append_assoc, List.cons_append]
    rw [splitLines_append_nl _ _ (natToChars_noNl k)]
    rw [splitLines_append_nl _ _ (tsLine_noNl s hs0 hs1 he0 he1)]
  rw [hsl]
  obtain ⟨t0, ts, hts⟩ : ∃ t0 ts, splitLines s.text = t0 :: ts := by
    cases hsp : splitLines s.text with
    | nil => exact absurd hsp (splitLinesGo_ne_nil _ _)
    | cons x xs => exact ⟨x, xs, rfl⟩
  rw [hts]
  simp only []
  have hallk : (natToChars k).all Char.isDigit = true := natToCharsFuel_all_digit (k + 1) k
  rw [stripList_of_all_digit _ hallk, pyInt_natToChars k]
  simp only []
  rw [strip_tsLine s hs0 hs1 he0 he1]
  rw [show tsLine s = format_timestamp_srt s.start ++
    ' ' :: '-' :: '-' :: '>' :: ' ' :: format_timestamp_srt s.end_ from rfl]
  rw [matchTiming_format s.start s.end_ hs0 hs1 he0 he1]
  simp only []
  rw [parse_format_srt s.start hs0 hs1, parse_format_srt s.end_ he0 he1]
  rw [← hts, joinNl_splitLines, hst]

theorem ne_nil_of_head?_char (l : List Char) (c : Char) (h : l.head? = some c) : l ≠ [] := by
  intro he
  rw [he] at h
  cases h

theorem genSrtGo_cons (k : ℕ) (s : Seg) (rest : List Seg) :
    genSrtGo k (s :: rest) = blockOf k s ++ '\n' :: '\n' :: genSrtGo (k + 1) rest := rfl

theorem genSrtGo_join : ∀ (segments : List Seg) (k : ℕ), segments ≠ [] →
    genSrtGo k segments = blocksJoin k segments ++ ['\n', '\n'] := by
  intro segments
  induction segments with
  | nil =>
    intro k h
    exact absurd rfl h
  | cons s rest ih =>
    intro k _
    rw [genSrtGo_cons]
    cases rest with
    | nil => rfl
    | cons s2 rest2 =>
      rw [ih (k + 1) (List.cons_ne_nil _ _)]
      rw [show blocksJoin k (s :: s2 :: rest2) =
        blockOf k s ++ '\n' :: '\n' :: blocksJoin (k + 1) (s2 :: rest2) from rfl]
      simp [List.append_assoc]

theorem blocksJoin_head (k : ℕ) (s : Seg) (rest : List Seg) :
    ∃ d, d < 10 ∧ (blocksJoin k (s :: rest)).head? = some (digitChar d) := by
  obtain ⟨d, hd, hh⟩ := blockOf_head k s
  refine ⟨d, hd, ?_⟩
  cases rest with
  | nil => exact hh
  | cons s2 r2 =>
    rw [show blocksJoin k (s :: s2 :: r2) =
      blockOf k s ++ '\n' :: '\n' :: blocksJoin (k + 1) (s2 :: r2) from rfl]
    rw [List.head?_append_of_ne_nil _ (ne_nil_of_head?_char _ _ hh)]
    exact hh

theorem blocksJoin_last : ∀ (rest : List Seg) (k : ℕ) (s : Seg), (∀ x ∈ s :: rest, goodSeg x) →
    ∃ c, (blocksJoin k (s :: rest)).getLast? = some c ∧ isPySpace c = false := by
  intro rest
  induction rest with
  | nil =>
    intro k s hg
    obtain ⟨_, _, _, _, _, hst, hne, _⟩ := hg s (List.mem_cons_self ..)
    obtain ⟨c, h1, h2⟩ := blockOf_last k s hst hne
    exact ⟨c, h1, h2⟩
  | cons s2 r2 ih =>
    intro k s hg
    obtain ⟨c, h1, h2⟩ := ih (k + 1) s2 (fun x hx => hg x (List.mem_cons_of_mem _ hx))
    refine ⟨c, ?_, h2⟩
    rw [show blocksJoin k (s :: s2 :: r2) =
      blockOf k s ++ '\n' :: '\n' :: blocksJoin (k + 1) (s2 :: r2) from rfl]
    rw [List.getLast?_append_of_ne_nil _ (List.cons_ne_nil _ _)]
    rw [show ('\n' :: '\n' :: blocksJoin (k + 1) (s2 :: r2)) =
      ['\n', '\n'] ++ blocksJoin (k + 1) (s2 :: r2) from rfl]
    obtain ⟨d, _, hh⟩ := blocksJoin_head (k + 1) s2 r2
    rw [List.getLast?_append_of_ne_nil _ (ne_nil_of_head?_char _ _ hh)]
    exact h1

theorem splitBlocks_blocksJoin : ∀ (segments : List Seg) (k : ℕ), segments ≠ [] →
    (∀ x ∈ segments, goodSeg x) →
    splitBlocks (blocksJoin k segments) = blocksList k segments := by
  intro segments
  induction segments with
  | nil =>
    intro k h _
    exact absurd rfl h
  | cons s rest ih =>
    intro k _ hg
    have hgs : goodSeg s := hg s (List.mem_cons_self ..)
    have hnbB : noBlankRun (blockOf k s) = true := blockOf_noBlankRun k s hgs
    cases rest with
    | nil =>
      rw [show blocksJoin k [s] = blockOf k s from rfl, splitBlocks]
      rw [splitBlocksGo_noSplit (blockOf k s) _ [] hnbB (Nat.lt_succ_self _)]
      rfl
    | cons s2 r2 =>
      rw [show blocksJoin k (s :: s2 :: r2) =
        blockOf k s ++ '\n' :: '\n' :: blocksJoin (k + 1) (s2 :: r2) from rfl]
      rw [splitBlocks]
      obtain ⟨_, _, _, _, _, hst, hne, _⟩ := hgs
      obtain ⟨cl, hcl, hclns⟩ := blockOf_last k s hst hne
      have hlastne : (blockOf k s).getLast? ≠ some '\n' := by
        rw [hcl]
        intro h
        have hc := Option.some_inj.mp h
        rw [hc] at hclns
        exact absurd hclns (by decide)
      have hfuel : (blockOf k s).length + 2 + (blocksJoin (k + 1) (s2 :: r2)).length <
          (blockOf k s ++ '\n' :: '\n' :: blocksJoin (k + 1) (s2 :: r2)).length + 1 := by
        simp [List.length_append]
        omega
      rw [splitBlocksGo_through (blockOf k s) _ _ [] hnbB hlastne hfuel]
      obtain ⟨d, hd, hh⟩ := blocksJoin_head (k + 1) s2 r2
      have hdw : (blocksJoin (k + 1) (s2 :: r2)).dropWhile (fun x => x = '\n') =
          blocksJoin (k + 1) (s2 :: r2) := by
        cases hjoin : blocksJoin (k + 1) (s2 :: r2) with
        | nil => rfl
        | cons c t =>
          rw [hjoin] at hh
          rw [List.head?_cons] at hh
          have hdc : c = digitChar d := Option.some_inj.mp hh
          have hcn : ¬(c = '\n') := by
            rw [hdc]
            intro hEq
            have h2 := digitChar_isDigit d hd
            rw [hEq] at h2
            exact absurd h2 (by decide)
          rw [List.dropWhile_cons, if_neg (by simpa using hcn)]
      rw [hdw]
      rw [show splitBlocksGo ((blocksJoin (k + 1) (s2 :: r2)).length + 1)
        (blocksJoin (k + 1) (s2 :: r2)) [] = splitBlocks (blocksJoin (k + 1) (s2 :: r2)) from rfl]
      rw [ih (k + 1) (List.cons_ne_nil _ _) (fun x hx => hg x (List.mem_cons_of_mem _ hx))]
      rfl

theorem filterMap_blocksList : ∀ (segments : List Seg) (k : ℕ), (∀ x ∈ segments, goodSeg x) →
    (blocksList k segments).filterMap parseBlockSrt = (segments.enumFrom k).map msSeg := by
  intro segments
  induction segments with
  | nil =>
    intro k _
    rfl
  | cons s rest ih =>
    intro k hg
    rw [show blocksList k (s :: rest) = blockOf k s :: blocksList (k + 1) rest from rfl]
    rw [List.filterMap_cons, parseBlock_blockOf k s (hg s (List.mem_cons_self ..))]
    simp only []
    rw [ih (k + 1) (fun x hx => hg x (List.mem_cons_of_mem _ hx))]
    rw [List.enumFrom_cons, List.map_cons]
    rfl

theorem strip_generate (segments : List Seg) (hne : segments ≠ [])
    (hg : ∀ x ∈ segments, goodSeg x) :
    stripList (generate_srt segments) = blocksJoin 1 segments := by
  rw [generate_srt, genSrtGo_join segments 1 hne]
  cases segments with
  | nil => exact absurd rfl hne
  | cons s rest =>
    obtain ⟨d, hd, hh⟩ := blocksJoin_head 1 s rest
    obtain ⟨c, hcl, hcns⟩ := blocksJoin_last rest 1 s hg
    apply strip_append_two_nl _ (ne_nil_of_head?_char _ _ hh)
    · intro c' hc'
      rw [hh] at hc'
      rw [← Option.some_inj.mp hc']
      exact digitChar_notSpace _ hd
    · intro c' hc'
      rw [hcl] at hc'
      rw [← Option.some_inj.mp hc']
      exact hcns

/-- C8 counterexample: a well-formed segment (end > start, non-empty text) whose start time reaches
100 hours round-trips to the empty list — the generator widens the hour field, the parser's timing
regex fails to match, and the whole block is silently dropped. -/
theorem claim8_counterexample_100_hours :
    parse_srt (generate_srt [⟨some 1, 360000, 360001, "hi".toList, none⟩]) = [] ∧
    ([(⟨some 1, 360000, 360001, "hi".toList, none⟩ : Seg)].map Seg.text ≠
      ([] : List Seg).map Seg.text) := by
  constructor
  · with_unfolding_all rfl
  · simp

/-- C8 (amended): for every sequence of segments whose times lie in [0, 100h), whose durations are
positive and whose texts are non-empty, strip-invariant and free of blank-line runs, parsing the
generated SRT text reproduces every segment's text exactly and its start and end truncated to the
millisecond, with the index fields rewritten to the one-based output positions; at or above 100
hours (or with text the writer's strip/blank-line handling alters) the block is dropped or changed
instead. -/
theorem claim8_roundtrip_amended (segments : List Seg)
    (hg : ∀ x ∈ segments, goodSeg x) :
    parse_srt (generate_srt segments) = (segments.enumFrom 1).map msSeg ∧
    (parse_srt (generate_srt segments)).map Seg.text = segments.map Seg.text ∧
    (parse_srt (generate_srt segments)).length = segments.length := by
  have hmain : parse_srt (generate_srt segments) = (segments.enumFrom 1).map msSeg := by
    cases hseg : segments with
    | nil => rfl
    | cons s rest =>
      subst hseg
      rw [parse_srt, strip_generate _ (List.cons_ne_nil _ _) hg,
          splitBlocks_blocksJoin _ 1 (List.cons_ne_nil _ _) hg,
          filterMap_blocksList _ 1 hg]
  refine ⟨hmain, ?_, ?_⟩
  · rw [hmain, List.map_map]
    rw [show (Seg.text ∘ msSeg) = (Seg.text ∘ Prod.snd) from rfl]
    rw [← List.map_map, List.enumFrom_map_snd]
  · rw [hmain, List.length_map, List.enumFrom_length]

/-- C8 witness: a single good segment with the non-contiguous input index 5 round-trips to itself
with its index rewritten to position 1 and its times unchanged (they are millisecond-aligned). -/
theorem claim8_witness :
    (∀ x ∈ [wSeg8], goodSeg x) ∧
    parse_srt (generate_srt [wSeg8]) = ([wSeg8].enumFrom 1).map msSeg ∧
    (parse_srt (generate_srt [wSeg8])).map Seg.text = [wSeg8].map Seg.text ∧
    ([wSeg8].enumFrom 1).map msSeg =
      [{ index := some 1, start := 1, end_ := 5 / 2, text := "hello world".toList,
         original := none }] := by
  have hg : ∀ x ∈ [wSeg8], goodSeg x := by
    intro x hx
    rw [List.mem_singleton] at hx
    subst hx
    show goodSeg wSeg8
    unfold goodSeg
    with_unfolding_all decide
  have h := claim8_roundtrip_amended [wSeg8] hg
  exact ⟨hg, h.1, h.2.1, by with_unfolding_all rfl⟩
